import Mathlib

/-!
# Verification of the crawl core of `crawler.js`

This file gives a shallow embedding of the crawl orchestration and
deduplication engine of the site-auditing crawler (`src/crawler.js`):

* `normalizeUrl`, `normalizeImageUrl` — the two URL normalizers (page
  identity / asset identity), built on a model of the WHATWG `new URL`
  parser covering authority-based (`scheme://host...`, nonempty host)
  URLs and opaque-path URLs of non-special schemes (`blob:`, `mailto:`,
  ...), with the standard's origin rules: a tuple origin for
  `http(s)`/`ws(s)`/`ftp`, the inner URL's origin for `blob:`, and the
  opaque serialization `"null"` otherwise.  Special-scheme URLs written
  without `//` and empty-host file URLs are outside the model.
  Wall-clock time, the browser engine and the network are abstracted as
  oracles; Unicode case mapping is modelled on the basic-latin range,
  which is what `String.prototype.toLowerCase` does on the ASCII URLs
  the crawler manipulates.
* `DOCUMENT_EXTENSIONS` / `isDocumentUrl` — the asset classifier.
* `checkImageExists` and the image-verification cache (`checkedImages`).
* `crawlStep` / `crawlLoop` / `crawlAndTest` — the BFS queue + visited-set
  scheduler, the per-page result construction, image reconciliation
  (lines 383–415) and link partitioning (lines 445–460), driven by fuel.

Strings are processed as their underlying character lists.
-/

/-! ## Character-level helpers -/

/-- ASCII lower-casing of a single character, as JavaScript
`toLowerCase` acts on the basic-latin letters. -/
def lowerChar (c : Char) : Char :=
  if h : 65 ≤ c.toNat ∧ c.toNat ≤ 90 then
    Char.ofNatAux (c.toNat + 32) (Or.inl (by omega))
  else c

/-- ASCII upper-casing of a single character (for `toUpperCase` in
`checkDocumentUrl`). -/
def upperChar (c : Char) : Char :=
  if h : 97 ≤ c.toNat ∧ c.toNat ≤ 122 then
    Char.ofNatAux (c.toNat - 32) (Or.inl (by omega))
  else c

theorem toNat_ofNatAux (n : Nat) (h : n.isValidChar) :
    (Char.ofNatAux n h).toNat = n := rfl

/-- `lowerChar` either fixes its argument or maps an upper-case letter
32 code points up into the lower-case range. -/
theorem lowerChar_spec (c : Char) :
    lowerChar c = c ∨
      (65 ≤ c.toNat ∧ c.toNat ≤ 90 ∧ (lowerChar c).toNat = c.toNat + 32) := by
  unfold lowerChar
  split
  · rename_i h
    exact Or.inr ⟨h.1, h.2, toNat_ofNatAux _ _⟩
  · exact Or.inl rfl

theorem lowerChar_eq_self (c : Char) (h : ¬ (65 ≤ c.toNat ∧ c.toNat ≤ 90)) :
    lowerChar c = c := by
  unfold lowerChar
  split
  · omega
  · rfl

theorem lowerChar_idem (c : Char) : lowerChar (lowerChar c) = lowerChar c := by
  rcases lowerChar_spec c with h | ⟨_, _, h⟩
  · rw [h]; exact h
  · exact lowerChar_eq_self _ (by omega)

/-- A character equality `c = d` transports to `toNat`. -/
theorem toNat_congr {c d : Char} (h : c = d) : c.toNat = d.toNat := by rw [h]

/-! ## Character classes used by the parser -/

/-- Characters that do not terminate the authority component:
anything but `/`, `?`, `#`. -/
def authChar (c : Char) : Bool :=
  decide (c ≠ '/' ∧ c ≠ '?' ∧ c ≠ '#')

/-- Anything but `?` and `#` (path characters). -/
def notQH (c : Char) : Bool :=
  decide (c ≠ '?' ∧ c ≠ '#')

/-- Anything but `#`. -/
def notHash (c : Char) : Bool :=
  decide (c ≠ '#')

/-- Anything but `:`. -/
def notColon (c : Char) : Bool :=
  decide (c ≠ ':')

/-- Anything but `@`. -/
def notAt (c : Char) : Bool :=
  decide (c ≠ '@')

/-- ASCII digit. -/
def isDigitChar (c : Char) : Bool :=
  decide (48 ≤ c.toNat ∧ c.toNat ≤ 57)

/-- ASCII letter. -/
def isAlphaChar (c : Char) : Bool :=
  decide ((65 ≤ c.toNat ∧ c.toNat ≤ 90) ∨ (97 ≤ c.toNat ∧ c.toNat ≤ 122))

/-- Characters allowed in a URL scheme after the first letter. -/
def isSchemeChar (c : Char) : Bool :=
  isAlphaChar c || isDigitChar c || decide (c = '+' ∨ c = '-' ∨ c = '.')

theorem lowerChar_isSchemeChar {c : Char} (h : isSchemeChar c = true) :
    isSchemeChar (lowerChar c) = true := by
  rcases lowerChar_spec c with hc | ⟨h1, h2, h3⟩
  · rwa [hc]
  · simp only [isSchemeChar, isAlphaChar, Bool.or_eq_true, decide_eq_true_eq]
    left; left; right; omega

theorem lowerChar_isAlphaChar {c : Char} (h : isAlphaChar c = true) :
    isAlphaChar (lowerChar c) = true := by
  rcases lowerChar_spec c with hc | ⟨h1, h2, h3⟩
  · rwa [hc]
  · simp only [isAlphaChar, decide_eq_true_eq]
    right; omega

theorem lowerChar_isDigitChar {c : Char} (h : isDigitChar c = true) :
    lowerChar c = c := by
  apply lowerChar_eq_self
  simp only [isDigitChar, decide_eq_true_eq] at h
  omega

/-- `lowerChar` never produces a character whose code point is below 97,
so inequality against such delimiter characters is preserved. -/
theorem lowerChar_ne_delim {c d : Char} (hd : d.toNat < 97)
    (h : c ≠ d) : lowerChar c ≠ d := by
  rcases lowerChar_spec c with hc | ⟨h1, h2, h3⟩
  · rwa [hc]
  · intro hcontra
    have := toNat_congr hcontra
    omega

theorem lowerChar_authChar {c : Char} (h : authChar c = true) :
    authChar (lowerChar c) = true := by
  simp only [authChar, decide_eq_true_eq] at *
  exact ⟨lowerChar_ne_delim (by decide) h.1,
    lowerChar_ne_delim (by decide) h.2.1,
    lowerChar_ne_delim (by decide) h.2.2⟩

theorem lowerChar_notAt {c : Char} (h : notAt c = true) :
    notAt (lowerChar c) = true := by
  simp only [notAt, decide_eq_true_eq] at *
  exact lowerChar_ne_delim (by decide) h

theorem isDigitChar_authChar {c : Char} (h : isDigitChar c = true) :
    authChar c = true := by
  simp only [isDigitChar, decide_eq_true_eq] at h
  simp only [authChar, decide_eq_true_eq]
  refine ⟨fun hc => ?_, fun hc => ?_, fun hc => ?_⟩ <;>
    · subst hc; exact absurd h (by decide)

theorem isDigitChar_notAt {c : Char} (h : isDigitChar c = true) :
    notAt c = true := by
  simp only [isDigitChar, decide_eq_true_eq] at h
  simp only [notAt, decide_eq_true_eq]
  intro hc; subst hc; exact absurd h (by decide)

theorem isDigitChar_ne_colon {c : Char} (h : isDigitChar c = true) :
    c ≠ ':' := by
  simp only [isDigitChar, decide_eq_true_eq] at h
  intro hc; subst hc; exact absurd h (by decide)

theorem isSchemeChar_notColon {c : Char} (h : isSchemeChar c = true) :
    notColon c = true := by
  simp only [isSchemeChar, isAlphaChar, isDigitChar, Bool.or_eq_true,
    decide_eq_true_eq] at h
  simp only [notColon, decide_eq_true_eq]
  intro hc
  subst hc
  rcases h with (h | h) | h
  · rcases h with h | h <;> exact absurd h (by decide)
  · exact absurd h (by decide)
  · rcases h with h | h | h <;> exact absurd h (by decide)

/-! ## List scanning helpers (own structural recursions) -/

/-- Longest `p`-satisfying front segment together with the rest. -/
def spanP (p : Char → Bool) : List Char → List Char × List Char
  | [] => ([], [])
  | c :: cs =>
    if p c then
      let r := spanP p cs
      (c :: r.1, r.2)
    else ([], c :: cs)

theorem spanP_all (p : Char → Bool) (l : List Char) (h : ∀ c ∈ l, p c = true) :
    spanP p l = (l, []) := by
  induction l with
  | nil => rfl
  | cons c cs ih =>
    simp [spanP, h c (by simp), ih fun x hx => h x (by simp [hx])]

theorem spanP_append_stop (p : Char → Bool) (l1 : List Char) (c : Char)
    (l2 : List Char) (h1 : ∀ x ∈ l1, p x = true) (hc : p c = false) :
    spanP p (l1 ++ c :: l2) = (l1, c :: l2) := by
  induction l1 with
  | nil => simp [spanP, hc]
  | cons a l1 ih =>
    have ha := h1 a (by simp)
    simp only [List.cons_append, spanP, ha, if_true]
    rw [show l1.append (c :: l2) = l1 ++ c :: l2 from rfl,
      ih fun x hx => h1 x (by simp [hx])]

theorem spanP_fst_all (p : Char → Bool) (l : List Char) :
    ∀ c ∈ (spanP p l).1, p c = true := by
  induction l with
  | nil => simp [spanP]
  | cons a l ih =>
    cases h : p a with
    | true =>
      simp only [spanP, h, if_true]
      intro c hc
      rcases List.mem_cons.mp hc with rfl | hc
      · exact h
      · exact ih c hc
    | false => simp [spanP, h]

theorem spanP_snd_sub (p : Char → Bool) (l : List Char) :
    ∀ c ∈ (spanP p l).2, c ∈ l := by
  induction l with
  | nil => simp [spanP]
  | cons a l ih =>
    cases h : p a with
    | true =>
      simp only [spanP, h, if_true]
      intro c hc
      exact List.mem_cons_of_mem a (ih c hc)
    | false =>
      simp [spanP, h]

theorem spanP_snd_head (p : Char → Bool) (l : List Char) :
    (spanP p l).2 = [] ∨
      ∃ c cs, (spanP p l).2 = c :: cs ∧ p c = false := by
  induction l with
  | nil => simp [spanP]
  | cons a l ih =>
    cases h : p a with
    | true => simpa only [spanP, h, if_true] using ih
    | false => exact Or.inr ⟨a, l, by simp [spanP, h], h⟩

theorem spanP_append_eq (p : Char → Bool) (l : List Char) :
    (spanP p l).1 ++ (spanP p l).2 = l := by
  induction l with
  | nil => rfl
  | cons a l ih =>
    cases h : p a with
    | true => simp only [spanP, h, if_true, List.cons_append, ih]
    | false => simp [spanP, h]

/-- Strip all trailing `/` characters (the `replace(/\/+$/, '')` in
`normalizeUrl`), by direct structural recursion. -/
def stripTrailingSlashes : List Char → List Char
  | [] => []
  | c :: cs =>
    match stripTrailingSlashes cs with
    | [] => if c = '/' then [] else [c]
    | r => c :: r

theorem strip_cons (c : Char) (cs : List Char) :
    stripTrailingSlashes (c :: cs) =
      match stripTrailingSlashes cs with
      | [] => if c = '/' then [] else [c]
      | r => c :: r := rfl

theorem strip_cases (c : Char) (cs : List Char) :
    stripTrailingSlashes (c :: cs) = [] ∧ c = '/' ∨
      stripTrailingSlashes (c :: cs) = [c] ∧ stripTrailingSlashes cs = [] ∨
      stripTrailingSlashes (c :: cs) = c :: stripTrailingSlashes cs ∧
        stripTrailingSlashes cs ≠ [] := by
  rw [strip_cons]
  rcases h : stripTrailingSlashes cs with _ | ⟨a, r⟩
  · by_cases hc : c = '/'
    · subst hc; simp
    · right; left
      simp [hc]
  · right; right
    simp

theorem strip_sub (l : List Char) : ∀ x ∈ stripTrailingSlashes l, x ∈ l := by
  induction l with
  | nil => simp [stripTrailingSlashes]
  | cons c cs ih =>
    rcases strip_cases c cs with ⟨h, _⟩ | ⟨h, _⟩ | ⟨h, _⟩ <;> rw [h]
    · simp
    · simp
    · intro x hx
      rcases List.mem_cons.mp hx with rfl | hx
      · simp
      · exact List.mem_cons_of_mem c (ih x hx)

/-- If the strip of `l2` is nonempty, stripping distributes over append. -/
theorem strip_append_of_ne (l1 l2 : List Char)
    (h : stripTrailingSlashes l2 ≠ []) :
    stripTrailingSlashes (l1 ++ l2) = l1 ++ stripTrailingSlashes l2 := by
  induction l1 with
  | nil => rfl
  | cons c l1 ih =>
    rw [List.cons_append, strip_cons, ih]
    rcases hh : l1 ++ stripTrailingSlashes l2 with _ | ⟨a, r⟩
    · rcases List.append_eq_nil.mp hh with ⟨-, h2⟩
      exact absurd h2 h
    · rw [List.cons_append, hh]

/-- If `l2` strips to nothing, the strip of the append is the strip of `l1`. -/
theorem strip_append_of_nil (l1 l2 : List Char)
    (h : stripTrailingSlashes l2 = []) :
    stripTrailingSlashes (l1 ++ l2) = stripTrailingSlashes l1 := by
  induction l1 with
  | nil => simpa using h
  | cons c l1 ih =>
    rw [List.cons_append, strip_cons, ih, strip_cons]

theorem strip_singleton (c : Char) (h : c ≠ '/') :
    stripTrailingSlashes [c] = [c] := by
  simp [stripTrailingSlashes, h]

/-- A list ending in a non-slash character is fixed by the strip. -/
theorem strip_concat (l : List Char) (c : Char) (h : c ≠ '/') :
    stripTrailingSlashes (l ++ [c]) = l ++ [c] := by
  rw [strip_append_of_ne l [c] (by rw [strip_singleton c h]; simp),
    strip_singleton c h]

theorem strip_idem (l : List Char) :
    stripTrailingSlashes (stripTrailingSlashes l) = stripTrailingSlashes l := by
  induction l with
  | nil => rfl
  | cons c cs ih =>
    rcases strip_cases c cs with ⟨h, hc⟩ | ⟨h, hnil⟩ | ⟨h, hne⟩ <;> rw [h]
    · rfl
    · by_cases hc : c = '/'
      · subst hc
        rw [strip_cons, hnil] at h
        simp at h
      · exact strip_singleton c hc
    · rw [strip_cons, ih]
      rcases hs : stripTrailingSlashes cs with _ | ⟨a, r⟩
      · exact absurd hs hne
      · rfl

/-- When nonempty, the strip of `c :: cs` starts with `c`. -/
theorem strip_head (c : Char) (cs : List Char)
    (h : stripTrailingSlashes (c :: cs) ≠ []) :
    ∃ t, stripTrailingSlashes (c :: cs) = c :: t := by
  rcases strip_cases c cs with ⟨h2, _⟩ | ⟨h2, _⟩ | ⟨h2, _⟩
  · exact absurd h2 h
  · exact ⟨[], h2⟩
  · exact ⟨stripTrailingSlashes cs, h2⟩

/-! ## The URL model

`JSUrl` models the result of JavaScript `new URL(s)` on an absolute
authority-based URL (`scheme://...`).  The parser below captures the
components the crawler reads (`origin`, `pathname`) plus the dropped
`search`/`hash`, including scheme/host lower-casing, userinfo removal and
default-port elision.  Exotic inputs (relative URLs, non-special schemes
without `//`, invalid hosts) make the parse fail, which models the
`catch` branches of `normalizeUrl` / `normalizeImageUrl` /
`isDocumentUrl`. -/

structure JSUrl where
  scheme : List Char
  host : List Char
  port : Option (List Char)
  pathname : List Char
  search : List Char
  hash : List Char
deriving Repr, DecidableEq

/-- Remove `userinfo@` (everything up to the last `@`) from an authority. -/
def dropUserinfo (a : List Char) : List Char :=
  let r := spanP notAt a.reverse
  match r.2 with
  | [] => a
  | _ :: _ => r.1.reverse

/-- Split a trailing `:digits` port off a host-port string. -/
def splitPort (hp : List Char) : List Char × Option (List Char) :=
  let r := spanP isDigitChar hp.reverse
  match r.2 with
  | [] => (hp, none)
  | c :: rest => if c = ':' then (rest.reverse, some r.1.reverse) else (hp, none)

/-- Default port of the special schemes, as WHATWG elides it. -/
def defaultPort (scheme : List Char) : Option (List Char) :=
  if scheme = "http".toList then some "80".toList
  else if scheme = "https".toList then some "443".toList
  else if scheme = "ws".toList then some "80".toList
  else if scheme = "wss".toList then some "443".toList
  else if scheme = "ftp".toList then some "21".toList
  else none

/-- A host containing `:` must be a bracketed IPv6 literal. -/
def bracketOk (h : List Char) : Bool :=
  match h with
  | [] => false
  | c :: rest => c == '[' && rest.getLastD ' ' == ']'

/-- Query / fragment extraction from the remainder after the path. -/
def parseSearchHash (l : List Char) : List Char × List Char :=
  match l with
  | [] => ([], [])
  | c :: r =>
    if c = '?' then
      let q := spanP notHash r
      (q.1, match q.2 with
            | [] => []
            | c2 :: hh => if c2 = '#' then hh else [])
    else if c = '#' then ([], r)
    else ([], [])

/-- Authority, port, path, query and fragment parsing: everything after
`scheme://`.  `sch` is the raw scheme, `r2` the rest of the input. -/
def parseAfterScheme (sch r2 : List Char) : Option JSUrl :=
  let a1 := spanP authChar r2
  let hp2 := splitPort ((dropUserinfo a1.1).map lowerChar)
  if hp2.1 ≠ [] ∧ (':' ∈ hp2.1 → bracketOk hp2.1 = true) then
    let scheme := sch.map lowerChar
    let port : Option (List Char) :=
      match hp2.2 with
      | some d => if d = [] ∨ defaultPort scheme = some d then none else some d
      | none => none
    let p1 := spanP notQH a1.2
    let pathname := if p1.1 = [] then ['/'] else p1.1
    let sh := parseSearchHash p1.2
    some ⟨scheme, hp2.1, port, pathname, sh.1, sh.2⟩
  else none

/-- The six WHATWG special schemes (lower-cased): these never take an
opaque path. -/
def isSpecialScheme (s : List Char) : Bool :=
  decide (s = "http".toList) || decide (s = "https".toList) ||
  decide (s = "ws".toList) || decide (s = "wss".toList) ||
  decide (s = "ftp".toList) || decide (s = "file".toList)

/-- Opaque-path parsing: `scheme:rest` with no `//` after the colon.
Node accepts this for non-special schemes (`blob:`, `mailto:`, ...);
the opaque path runs to the first `?` or `#`, and query and fragment
are split as usual.  A special scheme without `//` is outside the
model and remains a parse failure. -/
def parseOpaque (sch rest : List Char) : Option JSUrl :=
  let scheme := sch.map lowerChar
  if isSpecialScheme scheme = true then none
  else
    let p1 := spanP notQH rest
    let sh := parseSearchHash p1.2
    some ⟨scheme, [], none, p1.1, sh.1, sh.2⟩

/-- The `new URL` model on character lists: a scheme, then either the
literal `//` and the authority-based remainder, or an opaque path.
An opaque-path URL is recognizable by its empty host, which the
authority branch never produces. -/
def parseChars (cs : List Char) : Option JSUrl :=
  let s1 := spanP notColon cs
  match s1.2 with
  | [] => none
  | c1 :: rest1 =>
    if c1 = ':' ∧ s1.1 ≠ [] ∧ s1.1.all isSchemeChar = true ∧
        isAlphaChar (s1.1.headD ' ') = true then
      match rest1 with
      | c2 :: c3 :: r2 =>
        if c2 = '/' ∧ c3 = '/' then parseAfterScheme s1.1 r2
        else parseOpaque s1.1 rest1
      | _ => parseOpaque s1.1 rest1
    else none

/-- `new URL(s)` — `none` models the thrown `TypeError`. -/
def parseUrl (s : String) : Option JSUrl :=
  parseChars s.toList

/-- The `:port` part of the origin, when a non-default port is present. -/
def portSuffix (u : JSUrl) : List Char :=
  match u.port with
  | some p => ':' :: p
  | none => []

/-- The serialized tuple origin of an authority-form URL (scheme, host
and non-default port). -/
def originAuth (u : JSUrl) : List Char :=
  u.scheme ++ ':' :: '/' :: '/' :: u.host ++ portSuffix u

/-- Schemes whose `origin` getter returns a tuple origin
(`scheme://host[:port]`); `file:` is special but its origin is opaque
and serializes as `"null"`. -/
def isTupleOriginScheme (s : List Char) : Bool :=
  decide (s = "http".toList) || decide (s = "https".toList) ||
  decide (s = "ws".toList) || decide (s = "wss".toList) ||
  decide (s = "ftp".toList)

/-- `parsedUrl.origin` per the URL Standard: a tuple origin for
`http(s)`, `ws(s)` and `ftp`; for `blob:` the origin of the URL parsed
from the path when that URL is `http(s)` with a host, and otherwise —
as for every other scheme — the serialization `"null"` of an opaque
origin. -/
def origin (u : JSUrl) : List Char :=
  if u.scheme = "blob".toList then
    match parseChars u.pathname with
    | some inner =>
      if (inner.scheme = "http".toList ∨ inner.scheme = "https".toList) ∧
          inner.host ≠ [] then originAuth inner
      else "null".toList
    | none => "null".toList
  else if isTupleOriginScheme u.scheme = true then originAuth u
  else "null".toList

/-- `normalizeUrl` from `crawler.js` (page identity): origin + pathname
with trailing slashes stripped; a malformed URL is returned unchanged. -/
def normalizeUrl (url : String) : String :=
  match parseUrl url with
  | some u => ⟨stripTrailingSlashes (origin u ++ u.pathname)⟩
  | none => url

/-- `normalizeImageUrl` from `crawler.js` (asset identity): origin +
pathname (query string dropped); a malformed URL is returned unchanged. -/
def normalizeImageUrl (url : String) : String :=
  match parseUrl url with
  | some u => ⟨origin u ++ u.pathname⟩
  | none => url

/-- The `DOCUMENT_EXTENSIONS` list from `crawler.js`. -/
def DOCUMENT_EXTENSIONS : List String :=
  [".pdf", ".doc", ".docx", ".xls", ".xlsx", ".ppt", ".pptx",
   ".jpg", ".jpeg", ".png", ".gif", ".bmp", ".svg", ".webp",
   ".mp4", ".avi", ".mov", ".wmv",
   ".zip", ".rar", ".7z",
   ".txt", ".rtf"]

/-- `isDocumentUrl` from `crawler.js`: lower-cased pathname matched
suffix-wise against the fixed extension list; `false` on parse failure. -/
def isDocumentUrl (url : String) : Bool :=
  match parseUrl url with
  | some u =>
    DOCUMENT_EXTENSIONS.any fun ext =>
      ext.toList.isSuffixOf (u.pathname.map lowerChar)
  | none => false

/-! ## Properties of the parsing stages -/

theorem spanP_snd_nil_all (p : Char → Bool) (l : List Char)
    (h : (spanP p l).2 = []) : ∀ c ∈ l, p c = true := by
  intro c hc
  have happ := spanP_append_eq p l
  rw [h, List.append_nil] at happ
  exact spanP_fst_all p l c (by rw [happ]; exact hc)

theorem dropUserinfo_sub (a : List Char) :
    ∀ c ∈ dropUserinfo a, c ∈ a := by
  simp only [dropUserinfo]
  rcases h : (spanP notAt a.reverse).2 with _ | ⟨x, r⟩
  · exact fun c hc => hc
  · intro c hc
    have hc2 : c ∈ (spanP notAt a.reverse).1.reverse := hc
    rw [← List.mem_reverse]
    have happ := spanP_append_eq notAt a.reverse
    rw [← happ]
    simp only [List.mem_append]
    exact Or.inl (List.mem_reverse.mp hc2)

theorem dropUserinfo_all_notAt (a : List Char) :
    ∀ c ∈ dropUserinfo a, notAt c = true := by
  simp only [dropUserinfo]
  rcases h : (spanP notAt a.reverse).2 with _ | ⟨x, r⟩
  · intro c hc
    exact spanP_snd_nil_all notAt a.reverse h c (List.mem_reverse.mpr hc)
  · intro c hc
    have hc2 : c ∈ (spanP notAt a.reverse).1.reverse := hc
    exact spanP_fst_all notAt a.reverse c (List.mem_reverse.mp hc2)

theorem dropUserinfo_id (a : List Char) (h : ∀ c ∈ a, notAt c = true) :
    dropUserinfo a = a := by
  simp only [dropUserinfo]
  rw [spanP_all notAt a.reverse fun c hc => h c (List.mem_reverse.mp hc)]

theorem splitPort_fst_sub (hp : List Char) :
    ∀ c ∈ (splitPort hp).1, c ∈ hp := by
  simp only [splitPort]
  rcases h : (spanP isDigitChar hp.reverse).2 with _ | ⟨x, r⟩
  · exact fun c hc => hc
  · show ∀ c ∈ (if x = ':' then
        (r.reverse, some (spanP isDigitChar hp.reverse).1.reverse)
      else (hp, none)).1, c ∈ hp
    by_cases hx : x = ':'
    · rw [if_pos hx]
      intro c hc
      have hc2 : c ∈ r.reverse := hc
      rw [← List.mem_reverse]
      have happ := spanP_append_eq isDigitChar hp.reverse
      rw [← happ, h]
      simp only [List.mem_append, List.mem_cons]
      exact Or.inr (Or.inr (List.mem_reverse.mp hc2))
    · rw [if_neg hx]
      exact fun c hc => hc

/-- If none of the characters of `hp` is a colon, `splitPort` leaves it
alone. -/
theorem splitPort_no_colon (hp : List Char) (h : ':' ∉ hp) :
    splitPort hp = (hp, none) := by
  simp only [splitPort]
  rcases hs : (spanP isDigitChar hp.reverse).2 with _ | ⟨x, r⟩
  · rfl
  · show (if x = ':' then
        (r.reverse, some (spanP isDigitChar hp.reverse).1.reverse)
      else (hp, none)) = (hp, none)
    by_cases hx : x = ':'
    · exfalso
      apply h
      rw [← List.mem_reverse]
      have happ := spanP_append_eq isDigitChar hp.reverse
      rw [← happ, hs, hx]
      simp
    · rw [if_neg hx]

/-- A nonempty list ending in `]` (a bracketed IPv6 host) is also left
alone by `splitPort`. -/
theorem splitPort_bracket (hp : List Char) (hne : hp ≠ [])
    (hl : hp.getLast hne = ']') : splitPort hp = (hp, none) := by
  simp only [splitPort]
  have hrev : hp.reverse = ']' :: hp.dropLast.reverse := by
    conv_lhs => rw [← List.dropLast_append_getLast hne]
    rw [List.reverse_append, hl]
    rfl
  rw [hrev]
  rfl
/-- The invariants every `JSUrl` produced by `parseChars` satisfies;
they are exactly what is needed to re-parse `origin ++ path`. -/
structure UrlWF (u : JSUrl) : Prop where
  scheme_ne : u.scheme ≠ []
  scheme_all : ∀ c ∈ u.scheme, isSchemeChar c = true
  scheme_head : isAlphaChar (u.scheme.headD ' ') = true
  scheme_fix : ∀ c ∈ u.scheme, lowerChar c = c
  host_ne : u.host ≠ []
  host_auth : ∀ c ∈ u.host, authChar c = true
  host_notAt : ∀ c ∈ u.host, notAt c = true
  host_fix : ∀ c ∈ u.host, lowerChar c = c
  host_split : splitPort u.host = (u.host, none)
  host_colon : ':' ∈ u.host → bracketOk u.host = true
  port_spec : ∀ p, u.port = some p →
    p ≠ [] ∧ (∀ c ∈ p, isDigitChar c = true) ∧ defaultPort u.scheme ≠ some p
  path_ne : u.pathname ≠ []
  path_head : ∃ t, u.pathname = '/' :: t
  path_notQH : ∀ c ∈ u.pathname, notQH c = true

/-! ## Extraction: every parsed URL is well-formed -/

theorem spanP_cons_pos (p : Char → Bool) (c : Char) (t : List Char)
    (h : p c = true) : spanP p (c :: t) = (c :: (spanP p t).1, (spanP p t).2) := by
  simp [spanP, h]

theorem spanP_cons_neg (p : Char → Bool) (c : Char) (t : List Char)
    (h : p c = false) : spanP p (c :: t) = ([], c :: t) := by
  simp [spanP, h]

theorem getLastD_eq_getLast (l : List Char) (hne : l ≠ []) (d : Char) :
    l.getLastD d = l.getLast hne := by
  induction l with
  | nil => exact absurd rfl hne
  | cons a t ih =>
    cases t with
    | nil => rfl
    | cons b t2 =>
      rw [List.getLastD_cons, List.getLast_cons (by simp)]
      exact ih (by simp)

theorem bracketOk_spec (l : List Char) (h : bracketOk l = true) :
    ∃ hne : l ≠ [], l.getLast hne = ']' := by
  cases l with
  | nil => exact absurd h (by simp [bracketOk])
  | cons c rest =>
    simp only [bracketOk, Bool.and_eq_true, beq_iff_eq] at h
    cases rest with
    | nil => exact absurd h.2 (by decide)
    | cons b t =>
      refine ⟨by simp, ?_⟩
      rw [List.getLast_cons (by simp)]
      rw [getLastD_eq_getLast (b :: t) (by simp) ' '] at h
      exact h.2

theorem splitPort_snd_digits (hp d : List Char)
    (h : (splitPort hp).2 = some d) : ∀ c ∈ d, isDigitChar c = true := by
  simp only [splitPort] at h
  rcases hs : (spanP isDigitChar hp.reverse).2 with _ | ⟨x, r⟩ <;> rw [hs] at h
  · exact Option.noConfusion h
  · have h2 : (if x = ':' then
        (r.reverse, some (spanP isDigitChar hp.reverse).1.reverse)
      else (hp, none)).2 = some d := h
    by_cases hx : x = ':'
    · rw [if_pos hx] at h2
      have h3 := Option.some.inj h2
      subst h3
      intro c hc
      exact spanP_fst_all isDigitChar hp.reverse c (List.mem_reverse.mp hc)
    · rw [if_neg hx] at h2
      exact Option.noConfusion h2

theorem parseAfterScheme_WF (sch r2 : List Char) (u : JSUrl)
    (hs_ne : sch ≠ []) (hs_all : ∀ c ∈ sch, isSchemeChar c = true)
    (hs_head : isAlphaChar (sch.headD ' ') = true)
    (h : parseAfterScheme sch r2 = some u) : UrlWF u := by
  simp only [parseAfterScheme] at h
  split at h
  case isFalse => exact Option.noConfusion h
  case isTrue hcond =>
    have hu := (Option.some.inj h).symm
    subst hu
    set a1 := spanP authChar r2 with ha1
    set hp := (dropUserinfo a1.1).map lowerChar with hhp
    have host_mem : ∀ c ∈ (splitPort hp).1, ∃ x, x ∈ (spanP authChar r2).1 ∧
        x ∈ dropUserinfo a1.1 ∧ c = lowerChar x := by
      intro c hc
      have h1 : c ∈ hp := splitPort_fst_sub hp c hc
      rw [hhp] at h1
      rcases List.mem_map.mp h1 with ⟨x, hx, rfl⟩
      exact ⟨x, dropUserinfo_sub a1.1 x hx, hx, rfl⟩
    refine
      { scheme_ne := ?_, scheme_all := ?_, scheme_head := ?_, scheme_fix := ?_
        host_ne := hcond.1, host_auth := ?_, host_notAt := ?_, host_fix := ?_
        host_split := ?_, host_colon := hcond.2, port_spec := ?_
        path_ne := ?_, path_head := ?_, path_notQH := ?_ }
    · intro hc
      exact hs_ne (List.map_eq_nil_iff.mp hc)
    · intro c hc
      rcases List.mem_map.mp hc with ⟨x, hx, rfl⟩
      exact lowerChar_isSchemeChar (hs_all x hx)
    · rcases List.exists_cons_of_ne_nil hs_ne with ⟨a, t, rfl⟩
      exact lowerChar_isAlphaChar hs_head
    · intro c hc
      rcases List.mem_map.mp hc with ⟨x, hx, rfl⟩
      exact lowerChar_idem x
    · intro c hc
      rcases host_mem c hc with ⟨x, hx1, hx2, rfl⟩
      exact lowerChar_authChar (spanP_fst_all authChar r2 x hx1)
    · intro c hc
      rcases host_mem c hc with ⟨x, hx1, hx2, rfl⟩
      exact lowerChar_notAt (dropUserinfo_all_notAt a1.1 x hx2)
    · intro c hc
      rcases host_mem c hc with ⟨x, hx1, hx2, rfl⟩
      exact lowerChar_idem x
    · by_cases hcolon : ':' ∈ (splitPort hp).1
      · rcases bracketOk_spec _ (hcond.2 hcolon) with ⟨hne2, hlast⟩
        exact splitPort_bracket _ hne2 hlast
      · exact splitPort_no_colon _ hcolon
    · intro p hp_eq
      rcases hsp2 : (splitPort hp).2 with _ | ⟨d⟩ <;> rw [hsp2] at hp_eq
      · exact Option.noConfusion hp_eq
      · have hp_eq2 : (if d = [] ∨ defaultPort (sch.map lowerChar) = some d
            then none else some d) = some p := hp_eq
        split at hp_eq2
        · exact Option.noConfusion hp_eq2
        · rename_i hcond2
          push_neg at hcond2
          have hd := Option.some.inj hp_eq2
          rw [← hd]
          exact ⟨hcond2.1, splitPort_snd_digits hp d hsp2, hcond2.2⟩
    · by_cases hpe : (spanP notQH a1.2).1 = [] <;> simp [hpe]
    · by_cases hpe : (spanP notQH a1.2).1 = []
      · exact ⟨[], by simp [hpe]⟩
      · have hsnd2 := spanP_snd_head authChar r2
        rw [← ha1] at hsnd2
        rcases hsnd2 with hsnd | ⟨c, t, hsnd, hcfalse⟩
        · rw [hsnd] at hpe
          exact absurd rfl hpe
        · have hc3 : c = '/' ∨ c = '?' ∨ c = '#' := by
            by_contra hcc
            push_neg at hcc
            rw [show authChar c = decide (c ≠ '/' ∧ c ≠ '?' ∧ c ≠ '#') from rfl,
              decide_eq_false_iff_not] at hcfalse
            exact hcfalse ⟨hcc.1, hcc.2.1, hcc.2.2⟩
          rcases hc3 with rfl | rfl | rfl
          · rw [hsnd, spanP_cons_pos notQH '/' t (by decide)] at hpe
            refine ⟨(spanP notQH t).1, ?_⟩
            show (if (spanP notQH a1.2).1 = [] then ['/']
              else (spanP notQH a1.2).1) = '/' :: (spanP notQH t).1
            rw [hsnd, spanP_cons_pos notQH '/' t (by decide)]
            simp
          · rw [hsnd, spanP_cons_neg notQH '?' t (by decide)] at hpe
            exact absurd rfl hpe
          · rw [hsnd, spanP_cons_neg notQH '#' t (by decide)] at hpe
            exact absurd rfl hpe
    · by_cases hpe : (spanP notQH a1.2).1 = []
      · simp only [hpe, if_pos]
        intro c hc
        simp only [if_true, List.mem_singleton] at hc
        subst hc
        decide
      · simp only [if_neg hpe]
        exact spanP_fst_all notQH a1.2

theorem parseOpaque_host (sch rest : List Char) (u : JSUrl)
    (h : parseOpaque sch rest = some u) : u.host = [] := by
  simp only [parseOpaque] at h
  split at h
  · exact Option.noConfusion h
  · have hu := (Option.some.inj h).symm
    subst hu
    rfl

theorem parse_WF (cs : List Char) (u : JSUrl) (h : parseChars cs = some u)
    (hh : u.host ≠ []) : UrlWF u := by
  simp only [parseChars] at h
  rcases hm : (spanP notColon cs).2 with _ | ⟨c1, t1⟩
  · rw [hm] at h; exact Option.noConfusion h
  rcases t1 with _ | ⟨c2, t2⟩
  · rw [hm] at h
    have h2 : (if c1 = ':' ∧ (spanP notColon cs).1 ≠ [] ∧
        (spanP notColon cs).1.all isSchemeChar = true ∧
        isAlphaChar ((spanP notColon cs).1.headD ' ') = true then
          parseOpaque (spanP notColon cs).1 []
        else none) = some u := h
    split at h2
    · exact absurd (parseOpaque_host _ _ u h2) hh
    · exact Option.noConfusion h2
  rcases t2 with _ | ⟨c3, r2⟩
  · rw [hm] at h
    have h2 : (if c1 = ':' ∧ (spanP notColon cs).1 ≠ [] ∧
        (spanP notColon cs).1.all isSchemeChar = true ∧
        isAlphaChar ((spanP notColon cs).1.headD ' ') = true then
          parseOpaque (spanP notColon cs).1 [c2]
        else none) = some u := h
    split at h2
    · exact absurd (parseOpaque_host _ _ u h2) hh
    · exact Option.noConfusion h2
  rw [hm] at h
  have h2 : (if c1 = ':' ∧ (spanP notColon cs).1 ≠ [] ∧
      (spanP notColon cs).1.all isSchemeChar = true ∧
      isAlphaChar ((spanP notColon cs).1.headD ' ') = true then
        if c2 = '/' ∧ c3 = '/' then parseAfterScheme (spanP notColon cs).1 r2
        else parseOpaque (spanP notColon cs).1 (c2 :: c3 :: r2)
      else none) = some u := h
  split at h2
  · rename_i hcond
    split at h2
    · exact parseAfterScheme_WF _ _ _ hcond.2.1
        (List.all_eq_true.mp hcond.2.2.1) hcond.2.2.2 h2
    · exact absurd (parseOpaque_host _ _ u h2) hh
  · exact Option.noConfusion h2

/-! ## Re-parsing a normalized URL -/

theorem map_fixed (f : Char → Char) (l : List Char)
    (h : ∀ c ∈ l, f c = c) : l.map f = l := by
  induction l with
  | nil => rfl
  | cons a t ih =>
    rw [List.map_cons, h a (by simp), ih fun c hc => h c (by simp [hc])]

theorem lowerChar_colon : lowerChar ':' = ':' := by decide

theorem authChar_colon : authChar ':' = true := by decide

theorem splitPort_host_port (host p : List Char)
    (hdig : ∀ c ∈ p, isDigitChar c = true) :
    splitPort (host ++ ':' :: p) = (host, some p) := by
  simp only [splitPort]
  have hrev : (host ++ ':' :: p).reverse = p.reverse ++ ':' :: host.reverse := by
    rw [List.reverse_append, List.reverse_cons, List.append_assoc]
    rfl
  rw [hrev, spanP_append_stop isDigitChar p.reverse ':' host.reverse
    (fun c hc => hdig c (List.mem_reverse.mp hc)) (by decide)]
  simp

/-- Every character of the `host ++ portSuffix` block is an authority
character that `lowerChar` fixes and that is not `@`. -/
theorem hostport_chars (u : JSUrl) (w : UrlWF u) :
    ∀ c ∈ u.host ++ portSuffix u,
      authChar c = true ∧ notAt c = true ∧ lowerChar c = c := by
  intro c hc
  rcases List.mem_append.mp hc with hc | hc
  · exact ⟨w.host_auth c hc, w.host_notAt c hc, w.host_fix c hc⟩
  · simp only [portSuffix] at hc
    rcases hport : u.port with _ | ⟨p⟩ <;> rw [hport] at hc
    · simp at hc
    · rcases List.mem_cons.mp hc with rfl | hc
      · exact ⟨authChar_colon, by decide, lowerChar_colon⟩
      · have hd := (w.port_spec p hport).2.1 c hc
        exact ⟨isDigitChar_authChar hd, isDigitChar_notAt hd,
          lowerChar_isDigitChar hd⟩

theorem parseAfterScheme_reparse (u : JSUrl) (w : UrlWF u) (sp : List Char)
    (hsp : sp = [] ∨ (∃ t, sp = '/' :: t) ∧ ∀ c ∈ sp, notQH c = true) :
    parseAfterScheme u.scheme ((u.host ++ portSuffix u) ++ sp) =
      some ⟨u.scheme, u.host, u.port,
        (if sp = [] then ['/'] else sp), [], []⟩ := by
  have hchars := hostport_chars u w
  have hauth : ∀ c ∈ u.host ++ portSuffix u, authChar c = true :=
    fun c hc => (hchars c hc).1
  have hspan : spanP authChar ((u.host ++ portSuffix u) ++ sp) =
      (u.host ++ portSuffix u, sp) := by
    rcases hsp with rfl | ⟨⟨t, rfl⟩, hall⟩
    · rw [List.append_nil, spanP_all authChar _ hauth]
    · exact spanP_append_stop authChar _ '/' t hauth (by decide)
  have hdrop : dropUserinfo (u.host ++ portSuffix u) = u.host ++ portSuffix u :=
    dropUserinfo_id _ fun c hc => (hchars c hc).2.1
  have hmap : (u.host ++ portSuffix u).map lowerChar = u.host ++ portSuffix u :=
    map_fixed _ _ fun c hc => (hchars c hc).2.2
  have hsplit : splitPort (u.host ++ portSuffix u) = (u.host, u.port) := by
    rcases hport : u.port with _ | ⟨p⟩
    · simp only [portSuffix, hport, List.append_nil]
      exact w.host_split
    · simp only [portSuffix, hport]
      exact splitPort_host_port u.host p (w.port_spec p hport).2.1
  simp only [parseAfterScheme, hspan, hdrop, hmap, hsplit]
  rw [if_pos ⟨w.host_ne, w.host_colon⟩]
  have hschfix : u.scheme.map lowerChar = u.scheme := map_fixed _ _ w.scheme_fix
  rw [hschfix]
  have hportm : (match u.port with
      | some d => if d = [] ∨ defaultPort u.scheme = some d then none else some d
      | none => none) = u.port := by
    rcases hport : u.port with _ | ⟨p⟩
    · rfl
    · have hps := w.port_spec p hport
      show (if p = [] ∨ defaultPort u.scheme = some p then none
        else some p) = some p
      rw [if_neg]
      push_neg
      exact ⟨hps.1, hps.2.2⟩
  rw [hportm]
  have hpath : spanP notQH sp = (sp, []) := by
    rcases hsp with rfl | ⟨⟨t, rfl⟩, hall⟩
    · rfl
    · exact spanP_all notQH _ hall
  rw [hpath]
  rfl

theorem parse_origin_path (u : JSUrl) (w : UrlWF u) (sp : List Char)
    (hsp : sp = [] ∨ (∃ t, sp = '/' :: t) ∧ ∀ c ∈ sp, notQH c = true) :
    parseChars (originAuth u ++ sp) =
      some ⟨u.scheme, u.host, u.port,
        (if sp = [] then ['/'] else sp), [], []⟩ := by
  have h1 : originAuth u ++ sp =
      u.scheme ++ ':' :: '/' :: '/' :: ((u.host ++ portSuffix u) ++ sp) := by
    simp [originAuth, List.append_assoc]
  have hnc : ∀ c ∈ u.scheme, notColon c = true :=
    fun c hc => isSchemeChar_notColon (w.scheme_all c hc)
  simp only [parseChars]
  rw [h1, spanP_append_stop notColon u.scheme ':' _ hnc (by decide)]
  show (if ':' = ':' ∧ u.scheme ≠ [] ∧
      u.scheme.all isSchemeChar = true ∧
      isAlphaChar (u.scheme.headD ' ') = true then
        if '/' = '/' ∧ '/' = '/' then
          parseAfterScheme u.scheme ((u.host ++ portSuffix u) ++ sp)
        else parseOpaque u.scheme ('/' :: '/' :: ((u.host ++ portSuffix u) ++ sp))
      else none) =
    some ⟨u.scheme, u.host, u.port, (if sp = [] then ['/'] else sp), [], []⟩
  rw [if_pos ⟨rfl, w.scheme_ne,
    List.all_eq_true.mpr w.scheme_all, w.scheme_head⟩, if_pos ⟨rfl, rfl⟩]
  exact parseAfterScheme_reparse u w sp hsp

/-! ## Idempotence of the normalizers -/

theorem toList_mk (l : List Char) : (String.mk l).toList = l := rfl

theorem isDigitChar_ne_slash {c : Char} (h : isDigitChar c = true) :
    c ≠ '/' := by
  simp only [isDigitChar, decide_eq_true_eq] at h
  intro hc; subst hc; exact absurd h (by decide)

theorem strip_concat_form (l1 l2 : List Char) (hne : l2 ≠ [])
    (hl : l2.getLast hne ≠ '/') :
    stripTrailingSlashes (l1 ++ l2) = l1 ++ l2 := by
  conv_lhs => rw [← List.dropLast_append_getLast hne, ← List.append_assoc]
  rw [strip_concat _ _ hl, List.append_assoc, List.dropLast_append_getLast hne]

/-- A tuple origin never ends in a slash, so stripping trailing
slashes leaves it unchanged. -/
theorem strip_origin (u : JSUrl) (w : UrlWF u) :
    stripTrailingSlashes (originAuth u) = originAuth u := by
  rcases hport : u.port with _ | ⟨p⟩
  · have h1 : originAuth u = (u.scheme ++ [':', '/', '/']) ++ u.host := by
      simp [originAuth, portSuffix, hport, List.append_assoc]
    rw [h1]
    refine strip_concat_form _ _ w.host_ne ?_
    have hmem := List.getLast_mem w.host_ne
    have := w.host_auth _ hmem
    simp only [authChar, decide_eq_true_eq] at this
    exact this.1
  · have hps := w.port_spec p hport
    have h1 : originAuth u = ((u.scheme ++ [':', '/', '/'] ++ u.host) ++ [':']) ++ p := by
      simp [originAuth, portSuffix, hport, List.append_assoc]
    rw [h1]
    refine strip_concat_form _ _ hps.1 ?_
    exact isDigitChar_ne_slash (hps.2.1 _ (List.getLast_mem hps.1))

/-- For a tuple-origin scheme (never `blob`), `origin` is the
serialized authority. -/
theorem origin_tuple (u : JSUrl) (h : isTupleOriginScheme u.scheme = true) :
    origin u = originAuth u := by
  have hb : u.scheme ≠ "blob".toList := by
    intro hq
    rw [hq] at h
    exact absurd h (by decide)
  simp only [origin]
  rw [if_neg hb, if_pos h]

/-- For a non-`blob`, non-tuple-origin scheme the origin is the opaque
serialization `"null"`. -/
theorem origin_null (u : JSUrl) (hb : u.scheme ≠ "blob".toList)
    (h : isTupleOriginScheme u.scheme = false) :
    origin u = "null".toList := by
  have h2 : ¬ isTupleOriginScheme u.scheme = true := by simp [h]
  simp only [origin]
  rw [if_neg hb, if_neg h2]

/-- The append of an all-accepted block shifts `spanP` to the tail. -/
theorem spanP_append_all (p : Char → Bool) (l1 l2 : List Char)
    (h : ∀ c ∈ l1, p c = true) :
    spanP p (l1 ++ l2) = (l1 ++ (spanP p l2).1, (spanP p l2).2) := by
  induction l1 with
  | nil => simp
  | cons a t ih =>
    rw [List.cons_append, spanP_cons_pos p a _ (h a (by simp)),
      ih fun c hc => h c (by simp [hc])]
    rfl

/-- A string whose scheme candidate contains a `/` — in particular
anything beginning with `/`, or with `null/` — never parses: either
there is no `:` at all or the scheme guard rejects the slash. -/
theorem parseChars_slash_none (l1 t : List Char)
    (h1 : ∀ c ∈ l1, notColon c = true) (hs : '/' ∈ l1) :
    parseChars (l1 ++ t) = none := by
  simp only [parseChars]
  rw [spanP_append_all notColon l1 t h1]
  rcases h2 : (spanP notColon t).2 with _ | ⟨c1, rest1⟩
  · rfl
  · show (if c1 = ':' ∧ l1 ++ (spanP notColon t).1 ≠ [] ∧
        (l1 ++ (spanP notColon t).1).all isSchemeChar = true ∧
        isAlphaChar ((l1 ++ (spanP notColon t).1).headD ' ') = true then
          match rest1 with
          | c2 :: c3 :: r2 =>
            if c2 = '/' ∧ c3 = '/' then
              parseAfterScheme (l1 ++ (spanP notColon t).1) r2
            else parseOpaque (l1 ++ (spanP notColon t).1) rest1
          | _ => parseOpaque (l1 ++ (spanP notColon t).1) rest1
        else none) = none
    have hneg : ¬ ((l1 ++ (spanP notColon t).1).all isSchemeChar = true) := by
      intro hall
      exact absurd (List.all_eq_true.mp hall '/' (List.mem_append_left _ hs))
        (by decide)
    rw [if_neg fun hcond => hneg hcond.2.2.1]

/-- A `blob:` URL whose pathname begins with a slash (every
authority-parsed URL does) has an unparseable path, so its origin is
`"null"`. -/
theorem origin_blob_slash (u : JSUrl) (hb : u.scheme = "blob".toList)
    (hpath : ∃ t, u.pathname = '/' :: t) :
    origin u = "null".toList := by
  rcases hpath with ⟨t, hpath⟩
  have hnone : parseChars u.pathname = none := by
    rw [hpath, show ('/' :: t) = ['/'] ++ t from rfl]
    exact parseChars_slash_none ['/'] t (by decide) (by decide)
  simp [origin, hb, hnone]

theorem strip_slash_lists : stripTrailingSlashes ['/'] = [] := by decide

/-- Idempotence of the page-identity normalizer on authority-form
parses.  Opaque-path URLs (empty host), such as `blob:` URLs, are
excluded: on those the normalizer is not idempotent. -/
theorem normalizeUrl_idem (s : String) (u : JSUrl)
    (hp : parseUrl s = some u) (hh : u.host ≠ []) :
    normalizeUrl (normalizeUrl s) = normalizeUrl s := by
  have w := parse_WF s.toList u hp hh
  by_cases htup : isTupleOriginScheme u.scheme = true
  · -- tuple origin: the normalized string re-parses to the same origin/path
    have horig : origin u = originAuth u := origin_tuple u htup
    have h1 : normalizeUrl s =
        ⟨stripTrailingSlashes (originAuth u ++ u.pathname)⟩ := by
      simp [normalizeUrl, hp, horig]
    rcases w.path_head with ⟨t, hpath⟩
    rcases hsp : stripTrailingSlashes u.pathname with _ | ⟨c0, t0⟩
    · -- path strips to nothing: the identity is the bare origin
      have h2 : stripTrailingSlashes (originAuth u ++ u.pathname) =
          originAuth u := by
        rw [strip_append_of_nil _ _ hsp]
        exact strip_origin u w
      rw [h2] at h1
      rw [h1]
      have hparse2 : parseUrl ⟨originAuth u⟩ =
          some ⟨u.scheme, u.host, u.port, ['/'], [], []⟩ := by
        have := parse_origin_path u w [] (Or.inl rfl)
        rw [List.append_nil] at this
        exact this
      have horig2 : origin ⟨u.scheme, u.host, u.port, ['/'], [], []⟩ =
          originAuth u :=
        origin_tuple ⟨u.scheme, u.host, u.port, ['/'], [], []⟩ htup
      have h3 : normalizeUrl ⟨originAuth u⟩ =
          ⟨stripTrailingSlashes (originAuth u ++ ['/'])⟩ := by
        simp [normalizeUrl, hparse2, horig2]
      rw [h3]
      rw [strip_append_of_nil _ _ strip_slash_lists, strip_origin u w]
    · -- path strips to a nonempty '/'-headed list
      have hspne : stripTrailingSlashes u.pathname ≠ [] := by rw [hsp]; simp
      have hhead : ∃ t2, stripTrailingSlashes u.pathname = '/' :: t2 := by
        rw [hpath] at hspne ⊢
        exact strip_head '/' t hspne
      have hsub : ∀ c ∈ stripTrailingSlashes u.pathname, notQH c = true :=
        fun c hc => w.path_notQH c (strip_sub u.pathname c hc)
      have h2 : stripTrailingSlashes (originAuth u ++ u.pathname) =
          originAuth u ++ stripTrailingSlashes u.pathname :=
        strip_append_of_ne _ _ hspne
      rw [h2] at h1
      rw [h1]
      have hparse2 : parseUrl ⟨originAuth u ++ stripTrailingSlashes u.pathname⟩ =
          some ⟨u.scheme, u.host, u.port, stripTrailingSlashes u.pathname,
            [], []⟩ := by
        have := parse_origin_path u w (stripTrailingSlashes u.pathname)
          (Or.inr ⟨hhead, hsub⟩)
        rw [if_neg hspne] at this
        exact this
      have horig2 : origin ⟨u.scheme, u.host, u.port,
          stripTrailingSlashes u.pathname, [], []⟩ = originAuth u :=
        origin_tuple ⟨u.scheme, u.host, u.port,
          stripTrailingSlashes u.pathname, [], []⟩ htup
      have h3 : normalizeUrl ⟨originAuth u ++ stripTrailingSlashes u.pathname⟩ =
          ⟨stripTrailingSlashes (originAuth u ++
            stripTrailingSlashes u.pathname)⟩ := by
        simp only [normalizeUrl, hparse2, horig2]
      rw [h3, strip_append_of_ne _ _ (by rw [strip_idem]; exact hspne),
        strip_idem]
  · -- opaque origin: the normalized string starts with "null" and no
    -- longer parses, so the second pass returns it unchanged
    have hf : isTupleOriginScheme u.scheme = false := by
      revert htup; cases isTupleOriginScheme u.scheme <;> simp
    have horig : origin u = "null".toList := by
      by_cases hb : u.scheme = "blob".toList
      · exact origin_blob_slash u hb w.path_head
      · exact origin_null u hb hf
    have h1 : normalizeUrl s =
        ⟨stripTrailingSlashes ("null".toList ++ u.pathname)⟩ := by
      simp [normalizeUrl, hp, horig]
    rcases w.path_head with ⟨t, hpath⟩
    rcases hsp : stripTrailingSlashes u.pathname with _ | ⟨c0, t0⟩
    · have h2 : stripTrailingSlashes ("null".toList ++ u.pathname) =
          "null".toList := by
        rw [strip_append_of_nil _ _ hsp]; decide
      rw [h2] at h1
      rw [h1]
      decide
    · have hspne : stripTrailingSlashes u.pathname ≠ [] := by rw [hsp]; simp
      have hhead : ∃ t2, stripTrailingSlashes u.pathname = '/' :: t2 := by
        rw [hpath] at hspne ⊢
        exact strip_head '/' t hspne
      have h2 : stripTrailingSlashes ("null".toList ++ u.pathname) =
          "null".toList ++ stripTrailingSlashes u.pathname :=
        strip_append_of_ne _ _ hspne
      rw [h2] at h1
      rw [h1]
      rcases hhead with ⟨t2, ht2⟩
      rw [ht2]
      have hnp : parseUrl ⟨"null".toList ++ '/' :: t2⟩ = none := by
        show parseChars ("null".toList ++ '/' :: t2) = none
        rw [show "null".toList ++ '/' :: t2 =
          ("null".toList ++ ['/']) ++ t2 by simp]
        exact parseChars_slash_none _ t2 (by decide) (by decide)
      simp only [normalizeUrl, hnp]

/-- Idempotence of the asset-identity normalizer on authority-form
parses; opaque-path URLs are again excluded. -/
theorem normalizeImageUrl_idem (s : String) (u : JSUrl)
    (hp : parseUrl s = some u) (hh : u.host ≠ []) :
    normalizeImageUrl (normalizeImageUrl s) = normalizeImageUrl s := by
  have w := parse_WF s.toList u hp hh
  by_cases htup : isTupleOriginScheme u.scheme = true
  · have horig : origin u = originAuth u := origin_tuple u htup
    have h1 : normalizeImageUrl s = ⟨originAuth u ++ u.pathname⟩ := by
      simp [normalizeImageUrl, hp, horig]
    rw [h1]
    have hparse2 : parseUrl ⟨originAuth u ++ u.pathname⟩ =
        some ⟨u.scheme, u.host, u.port, u.pathname, [], []⟩ := by
      have := parse_origin_path u w u.pathname
        (Or.inr ⟨w.path_head, w.path_notQH⟩)
      rw [if_neg w.path_ne] at this
      exact this
    have horig2 : origin ⟨u.scheme, u.host, u.port, u.pathname, [], []⟩ =
        originAuth u :=
      origin_tuple ⟨u.scheme, u.host, u.port, u.pathname, [], []⟩ htup
    simp only [normalizeImageUrl, hparse2, horig2]
  · have hf : isTupleOriginScheme u.scheme = false := by
      revert htup; cases isTupleOriginScheme u.scheme <;> simp
    have horig : origin u = "null".toList := by
      by_cases hb : u.scheme = "blob".toList
      · exact origin_blob_slash u hb w.path_head
      · exact origin_null u hb hf
    have h1 : normalizeImageUrl s = ⟨"null".toList ++ u.pathname⟩ := by
      simp [normalizeImageUrl, hp, horig]
    rw [h1]
    rcases w.path_head with ⟨t, hpath⟩
    rw [hpath]
    have hnp : parseUrl ⟨"null".toList ++ '/' :: t⟩ = none := by
      show parseChars ("null".toList ++ '/' :: t) = none
      rw [show "null".toList ++ '/' :: t =
        ("null".toList ++ ['/']) ++ t by simp]
      exact parseChars_slash_none _ t (by decide) (by decide)
    simp only [normalizeImageUrl, hnp]

/-! ## The crawl model

The browser engine and the network are abstracted as a `Web` oracle:
`pages` is what `page.goto` + the extraction `evaluate` calls observe for
a URL (navigation success, HTTP status, title, meta description and tags,
the in-page image inventory with the browser-reported working flag, and
the resolved `a[href]` list), and `probe` is the in-page
`fetch(url, {method: 'HEAD'})` — `some (status, ok)` when the evaluate
call returns, `none` when it throws.  Wall-clock `loadTime` is modelled
as `0`; the event-driven error listeners of `setupErrorHandling` are
outside the model (no page/console events are delivered). -/

/-- `String.prototype.startsWith`. -/
def startsWithS (s pre : String) : Bool :=
  pre.toList.isPrefixOf s.toList

/-- The characters after the last occurrence of `sep` (the result of
`str.split(sep).pop()`). -/
def lastSegAfter (sep : Char) (cs : List Char) : List Char :=
  (spanP (fun c => decide (c ≠ sep)) cs.reverse).1.reverse

/-- `url.split('.').pop()?.toUpperCase() || 'DOCUMENT'` from
`checkDocumentUrl`. -/
def docTypeOf (url : String) : String :=
  let seg := lastSegAfter '.' url.toList
  if seg = [] then "DOCUMENT" else ⟨seg.map upperChar⟩

/-- `url.split('/').pop()`. -/
def lastPathSeg (url : String) : String :=
  ⟨lastSegAfter '/' url.toList⟩

/-- One entry of the `checkedImages` map. -/
structure CacheEntry where
  entryExists : Bool
  verified : Bool
  originalUrl : String
  status : Nat
deriving Repr, DecidableEq

/-- Lookup in the association-list model of the `checkedImages` `Map`. -/
def lookupC : List (String × CacheEntry) → String → Option CacheEntry
  | [], _ => none
  | (k, e) :: rest, key => if k = key then some e else lookupC rest key

/-- `checkImageExists(page, imageUrl)` from `crawler.js`: returns the
existence verdict together with the updated cache and the list of URLs
actually probed (empty on a cache hit). -/
def checkImageExists (probe : String → Option (Nat × Bool))
    (cache : List (String × CacheEntry)) (imageUrl : String) :
    Bool × List (String × CacheEntry) × List String :=
  let norm := normalizeImageUrl imageUrl
  match lookupC cache norm with
  | some e => (e.entryExists, cache, [])
  | none =>
    match probe imageUrl with
    | some (status, ok) =>
      let ex := ok && status == 200
      (ex, (norm, ⟨ex, true, imageUrl, status⟩) :: cache, [imageUrl])
    | none =>
      (false, (norm, ⟨false, true, imageUrl, 0⟩) :: cache, [imageUrl])

/-- One record of `imagesAnalysis.details`. -/
structure ImageInfo where
  src : String
  alt : String
  isWorking : Bool
  verifiedExists : Option Bool
  cachedCheck : Option Bool
deriving Repr, DecidableEq

/-- The aggregate image analysis of one page. -/
structure ImagesAnalysis where
  total : Int
  working : Int
  broken : Int
  withAlt : Int
  withoutAlt : Int
  details : List ImageInfo
deriving Repr, DecidableEq

/-- One `pageResult` record. -/
structure PageResult where
  url : String
  title : String
  metaDescription : String
  jsErrors : List String
  consoleErrors : List String
  brokenImages : List String
  imagesAnalysis : ImagesAnalysis
  links : List String
  documentLinks : List String
  statusCode : Nat
  loadTime : Nat
  metaTags : List (String × String)
  isDocument : Bool
  documentType : String
  documentStatus : String
deriving Repr, DecidableEq

/-- The freshly initialized `pageResult` (crawler.js lines 244–267). -/
def emptyPageResult (url : String) : PageResult :=
  { url := url, title := "", metaDescription := "", jsErrors := [],
    consoleErrors := [], brokenImages := [],
    imagesAnalysis := ⟨0, 0, 0, 0, 0, []⟩, links := [], documentLinks := [],
    statusCode := 200, loadTime := 0, metaTags := [], isDocument := false,
    documentType := "", documentStatus := "" }

/-- What the browser reports for one `<img>` element: source, alt text
and the `complete && naturalWidth > 0 && naturalHeight > 0` flag. -/
structure BrowserImg where
  src : String
  alt : String
  isWorking : Bool
deriving Repr, DecidableEq

/-- What one navigation + extraction observes for a URL. -/
structure PageData where
  navOk : Bool
  navErrMsg : String
  status : Nat
  title : String
  metaDescription : String
  metaTags : List (String × String)
  images : List BrowserImg
  links : List String

/-- The external world: browser navigation/extraction plus the HEAD
probe used by `checkImageExists`. -/
structure Web where
  pages : String → PageData
  probe : String → Option (Nat × Bool)

/-- JavaScript whitespace (the ASCII part relevant to
`String.prototype.trim`). -/
def isWsChar (c : Char) : Bool :=
  decide (c.toNat = 9 ∨ c.toNat = 10 ∨ c.toNat = 11 ∨ c.toNat = 12 ∨
    c.toNat = 13 ∨ c.toNat = 32)

/-- The alt-text test of line 356, `img.alt && img.alt.trim() !== ''`:
the alt text holds at least one non-whitespace character. -/
def altNonBlank (alt : String) : Bool :=
  alt.toList.any fun c => !(isWsChar c)

/-- The in-page image analysis (the `page.evaluate` of lines 334–375):
counts computed from the browser-reported flags, details recorded per
DOM occurrence. -/
def initialAnalysis (imgs : List BrowserImg) : ImagesAnalysis :=
  { total := (imgs.length : Int)
    working := (imgs.countP (fun b => b.isWorking) : Int)
    broken := (imgs.countP (fun b => !b.isWorking) : Int)
    withAlt := (imgs.countP (fun b => altNonBlank b.alt) : Int)
    withoutAlt := (imgs.countP (fun b => !(altNonBlank b.alt)) : Int)
    details := imgs.map fun b => ⟨b.src, b.alt, b.isWorking, none, none⟩ }

/-- Mutable state threaded through the verification loop of lines
383–415: the shared image cache, the log of issued probes, and the
page's running working/broken counters. -/
structure VerifyState where
  cache : List (String × CacheEntry)
  probeLog : List String
  working : Int
  broken : Int
deriving Repr, DecidableEq

/-- One iteration of the `for (const imageInfo of ...details)` loop. -/
def verifyOne (probe : String → Option (Nat × Bool)) (img : ImageInfo)
    (vs : VerifyState) : ImageInfo × VerifyState :=
  if decide (img.src ≠ "") && !(startsWithS img.src "data:") then
    match lookupC vs.cache (normalizeImageUrl img.src) with
    | some e =>
      let down := !e.entryExists && img.isWorking
      ({ img with
          verifiedExists := some e.entryExists,
          cachedCheck := some true,
          isWorking := if down then false else img.isWorking },
       { vs with
          working := if down then vs.working - 1 else vs.working,
          broken := if down then vs.broken + 1 else vs.broken })
    | none =>
      let r := checkImageExists probe vs.cache img.src
      let down := !r.1 && img.isWorking
      ({ img with
          verifiedExists := some r.1,
          cachedCheck := some false,
          isWorking := if down then false else img.isWorking },
       { vs with
          cache := r.2.1,
          probeLog := vs.probeLog ++ r.2.2,
          working := if down then vs.working - 1 else vs.working,
          broken := if down then vs.broken + 1 else vs.broken })
  else (img, vs)

/-- The whole verification loop over a page's image details. -/
def verifyImages (probe : String → Option (Nat × Bool)) :
    List ImageInfo → VerifyState → List ImageInfo × VerifyState
  | [], vs => ([], vs)
  | img :: rest, vs =>
    let r1 := verifyOne probe img vs
    let r2 := verifyImages probe rest r1.2
    (r1.1 :: r2.1, r2.2)

/-- The `allLinks.forEach` partition of lines 445–460: returns
(internalLinks, documentLinks, queue after pushes).  The queue is
threaded because the in-loop dedup consults it. -/
def processLinks (root : String) (visited : List String) :
    List String → List String → List String × List String × List String
  | [], queue => ([], [], queue)
  | link :: rest, queue =>
    if isDocumentUrl link then
      let r := processLinks root visited rest queue
      (r.1, link :: r.2.1, r.2.2)
    else if startsWithS link root then
      if !(decide (normalizeUrl link ∈ visited)) &&
          !(queue.any fun q => normalizeUrl q == normalizeUrl link) then
        let r := processLinks root visited rest (queue ++ [link])
        (link :: r.1, r.2.1, r.2.2)
      else processLinks root visited rest queue
    else processLinks root visited rest queue

/-- `checkDocumentUrl` from `crawler.js`: navigate to the document and
record status/type; on failure only `documentStatus` and `jsErrors` are
touched (in particular `isDocument` stays `false`). -/
def checkDocumentUrl (web : Web) (url : String) (pr : PageResult) :
    PageResult :=
  let pd := web.pages url
  if pd.navOk then
    let pr2 := { pr with
      loadTime := 0, statusCode := pd.status,
      isDocument := true, documentType := docTypeOf url }
    if 400 ≤ pd.status then
      { pr2 with
        documentStatus := "broken",
        jsErrors := pr2.jsErrors ++
          ["Document returned status: " ++ toString pd.status] }
    else
      { pr2 with
        documentStatus := "accessible",
        title := "📄 " ++ pr2.documentType ++ " Document: " ++
          lastPathSeg url }
  else
    { pr with
      loadTime := 0, documentStatus := "broken",
      jsErrors := pr.jsErrors ++
        ["Failed to load document: " ++ pd.navErrMsg] }

/-- The mutable module-level state of the crawl: `visited`, `queue`,
`results`, the `checkedImages` cache, plus the log of issued probes. -/
structure CrawlState where
  visited : List String
  queue : List String
  results : List PageResult
  cache : List (String × CacheEntry)
  probeLog : List String

/-- The successful-navigation (HTML) part of one loop iteration:
image analysis + verification (lines 332–426), link extraction and
partitioning (lines 428–464), and the final push of the result. -/
def crawlHtml (web : Web) (root : String) (st : CrawlState) (url : String)
    (rest visited2 : List String) : CrawlState :=
  let pd := web.pages url
  let ia0 := initialAnalysis pd.images
  let vr := verifyImages web.probe ia0.details
    ⟨st.cache, st.probeLog, ia0.working, ia0.broken⟩
  let ia := { ia0 with
    working := vr.2.working,
    broken := vr.2.broken, details := vr.1 }
  let lr := processLinks root visited2 pd.links rest
  let pr := { emptyPageResult url with
    title := if pd.title = "" then "⚠ Missing <title>" else pd.title,
    metaDescription := pd.metaDescription,
    metaTags := pd.metaTags,
    statusCode := pd.status,
    imagesAnalysis := ia,
    brokenImages := (vr.1.filter fun i => !i.isWorking).map
      fun i => i.src,
    links := lr.1,
    documentLinks := lr.2.1 }
  { visited := visited2, queue := lr.2.2,
    results := st.results ++ [pr],
    cache := vr.2.cache, probeLog := vr.2.probeLog }

/-- One iteration of the `while (queue.length > 0)` loop of
`crawlAndTest` (lines 231–482). -/
def crawlStep (web : Web) (root : String) (st : CrawlState) : CrawlState :=
  match st.queue with
  | [] => st
  | url :: rest =>
    let norm := normalizeUrl url
    if norm ∈ st.visited then
      { st with queue := rest }
    else
      let visited2 := norm :: st.visited
      if isDocumentUrl url then
        { st with
          queue := rest, visited := visited2,
          results := st.results ++ [checkDocumentUrl web url
            (emptyPageResult url)] }
      else
        if (web.pages url).navOk then
          crawlHtml web root st url rest visited2
        else
          { st with
            queue := rest, visited := visited2,
            results := st.results ++ [{ emptyPageResult url with
              jsErrors := ["Page failed to load: " ++
                (web.pages url).navErrMsg] }] }

/-- The crawl loop, driven by fuel (the source loop runs until the
queue empties; fuel makes the model total on arbitrary `Web`s). -/
def crawlLoop (web : Web) (root : String) : Nat → CrawlState → CrawlState
  | 0, st => st
  | Nat.succ n, st =>
    match st.queue with
    | [] => st
    | _ :: _ => crawlLoop web root n (crawlStep web root st)

/-- `crawlAndTest()`: start from `queue = [ROOT]`, `visited = {}`. -/
def crawlAndTest (web : Web) (root : String) (fuel : Nat) : CrawlState :=
  crawlLoop web root fuel ⟨[], [root], [], [], []⟩

/-! ## Scheduler invariants: at-most-once processing -/

theorem checkDocumentUrl_url (web : Web) (url : String) (pr : PageResult) :
    (checkDocumentUrl web url pr).url = pr.url := by
  simp only [checkDocumentUrl]
  split
  · split <;> rfl
  · rfl

theorem crawlStep_nil (web : Web) (root : String) (st : CrawlState)
    (h : st.queue = []) : crawlStep web root st = st := by
  simp [crawlStep, h]

theorem crawlStep_skip (web : Web) (root : String) (st : CrawlState)
    (url : String) (rest : List String) (hq : st.queue = url :: rest)
    (hv : normalizeUrl url ∈ st.visited) :
    crawlStep web root st = { st with queue := rest } := by
  simp [crawlStep, hq, hv]

/-- When the head of the queue has an unvisited identity, the step emits
exactly one result, for that URL, and marks the identity visited. -/
theorem crawlStep_emit (web : Web) (root : String) (st : CrawlState)
    (url : String) (rest : List String) (hq : st.queue = url :: rest)
    (hv : normalizeUrl url ∉ st.visited) :
    ∃ pr : PageResult,
      (crawlStep web root st).results = st.results ++ [pr] ∧
      pr.url = url ∧
      (crawlStep web root st).visited = normalizeUrl url :: st.visited := by
  simp only [crawlStep, hq]
  rw [if_neg hv]
  by_cases hdoc : isDocumentUrl url = true
  · refine ⟨checkDocumentUrl web url (emptyPageResult url), ?_,
      checkDocumentUrl_url web url _, ?_⟩ <;> simp [hdoc]
  · rw [Bool.not_eq_true] at hdoc
    by_cases hnav : (web.pages url).navOk = true
    · simp only [hdoc, Bool.false_eq_true, if_false, hnav, if_true]
      exact ⟨_, rfl, rfl, rfl⟩
    · rw [Bool.not_eq_true] at hnav
      simp only [hdoc, hnav, Bool.false_eq_true, if_false]
      exact ⟨_, rfl, rfl, trivial⟩

/-- The visited set never shrinks. -/
theorem crawlStep_visited_mono (web : Web) (root : String) (st : CrawlState) :
    ∀ v ∈ st.visited, v ∈ (crawlStep web root st).visited := by
  rcases hq : st.queue with _ | ⟨url, rest⟩
  · rw [crawlStep_nil web root st hq]
    exact fun v hv => hv
  · by_cases hv : normalizeUrl url ∈ st.visited
    · rw [crawlStep_skip web root st url rest hq hv]
      exact fun v h => h
    · rcases crawlStep_emit web root st url rest hq hv with ⟨pr, -, -, hvis⟩
      rw [hvis]
      exact fun v h => List.mem_cons_of_mem _ h

/-- The step's effect on results: unchanged, or extended by one record. -/
theorem crawlStep_results (web : Web) (root : String) (st : CrawlState) :
    (crawlStep web root st).results = st.results ∨
      ∃ pr, (crawlStep web root st).results = st.results ++ [pr] ∧
        pr.url ∈ st.queue ∧
        normalizeUrl pr.url ∉ st.visited ∧
        normalizeUrl pr.url ∈ (crawlStep web root st).visited := by
  rcases hq : st.queue with _ | ⟨url, rest⟩
  · rw [crawlStep_nil web root st hq]
    exact Or.inl rfl
  · by_cases hv : normalizeUrl url ∈ st.visited
    · rw [crawlStep_skip web root st url rest hq hv]
      exact Or.inl rfl
    · rcases crawlStep_emit web root st url rest hq hv with ⟨pr, hres, hurl, hvis⟩
      refine Or.inr ⟨pr, hres, ?_, ?_, ?_⟩
      · rw [hurl]
        simp
      · rw [hurl]
        exact hv
      · rw [hurl, hvis]
        simp

/-- The visit-once invariant: result identities are distinct and all
recorded as visited. -/
def ResultsInv (st : CrawlState) : Prop :=
  (st.results.map fun r => normalizeUrl r.url).Nodup ∧
  ∀ r ∈ st.results, normalizeUrl r.url ∈ st.visited

theorem crawlStep_resultsInv (web : Web) (root : String) (st : CrawlState)
    (h : ResultsInv st) : ResultsInv (crawlStep web root st) := by
  have hmono := crawlStep_visited_mono web root st
  rcases crawlStep_results web root st with hres | ⟨pr, hres, hq, hnotv, hvis⟩
  · exact ⟨hres ▸ h.1, fun r hr => hmono _ (h.2 r (hres ▸ hr))⟩
  · constructor
    · rw [hres, List.map_append, List.map_singleton, List.nodup_append]
      refine ⟨h.1, List.nodup_singleton _, ?_⟩
      intro a ha
      simp only [List.mem_singleton]
      rcases List.mem_map.mp ha with ⟨r, hr, rfl⟩
      intro heq
      exact hnotv (heq ▸ h.2 r hr)
    · intro r hr
      rw [hres] at hr
      rcases List.mem_append.mp hr with hr | hr
      · exact hmono _ (h.2 r hr)
      · rw [List.mem_singleton.mp hr]
        exact hvis

theorem crawlLoop_resultsInv (web : Web) (root : String) (fuel : Nat) :
    ∀ st : CrawlState, ResultsInv st → ResultsInv (crawlLoop web root fuel st) := by
  induction fuel with
  | zero => exact fun st h => h
  | succ n ih =>
    intro st h
    simp only [crawlLoop]
    rcases hq : st.queue with _ | ⟨url, rest⟩
    · exact h
    · exact ih _ (crawlStep_resultsInv web root st h)

/-! ## Cache invariants: at most one probe per asset identity -/

theorem lookupC_cons_isSome (cache : List (String × CacheEntry))
    (k : String) (e : CacheEntry) (key : String)
    (h : (lookupC cache key).isSome = true) :
    (lookupC ((k, e) :: cache) key).isSome = true := by
  simp only [lookupC]
  split <;> simp [h]

theorem lookupC_cons_self (cache : List (String × CacheEntry))
    (k : String) (e : CacheEntry) :
    lookupC ((k, e) :: cache) k = some e := by
  simp [lookupC]

/-- Every probed URL's asset identity is a key of the cache, and probed
identities are pairwise distinct. -/
def CacheInv (cache : List (String × CacheEntry)) (log : List String) : Prop :=
  (log.map normalizeImageUrl).Nodup ∧
  ∀ u ∈ log, (lookupC cache (normalizeImageUrl u)).isSome = true

theorem checkImageExists_cacheInv (probe : String → Option (Nat × Bool))
    (cache : List (String × CacheEntry)) (log : List String) (url : String)
    (h : CacheInv cache log) :
    CacheInv (checkImageExists probe cache url).2.1
      (log ++ (checkImageExists probe cache url).2.2) := by
  simp only [checkImageExists]
  rcases hl : lookupC cache (normalizeImageUrl url) with _ | ⟨e⟩
  · have step : ∀ ent : CacheEntry,
        CacheInv ((normalizeImageUrl url, ent) :: cache) (log ++ [url]) := by
      intro ent
      constructor
      · rw [List.map_append, List.map_singleton, List.nodup_append]
        refine ⟨h.1, List.nodup_singleton _, ?_⟩
        intro a ha
        rcases List.mem_map.mp ha with ⟨u, hu, rfl⟩
        simp only [List.mem_singleton]
        intro heq
        have := h.2 u hu
        rw [heq, hl] at this
        exact absurd this (by simp)
      · intro u hu
        rcases List.mem_append.mp hu with hu | hu
        · exact lookupC_cons_isSome cache _ ent _ (h.2 u hu)
        · rw [List.mem_singleton.mp hu, lookupC_cons_self]
          rfl
    rcases hpr : probe url with _ | ⟨sb⟩
    · exact step _
    · rcases sb with ⟨status, ok⟩
      exact step _
  · simpa using h

theorem verifyOne_cacheInv (probe : String → Option (Nat × Bool))
    (img : ImageInfo) (vs : VerifyState)
    (h : CacheInv vs.cache vs.probeLog) :
    CacheInv (verifyOne probe img vs).2.cache
      (verifyOne probe img vs).2.probeLog := by
  simp only [verifyOne]
  split
  · rcases hl : lookupC vs.cache (normalizeImageUrl img.src) with _ | ⟨e⟩
    · exact checkImageExists_cacheInv probe vs.cache vs.probeLog img.src h
    · exact h
  · exact h

theorem verifyImages_cacheInv (probe : String → Option (Nat × Bool)) :
    ∀ (imgs : List ImageInfo) (vs : VerifyState),
      CacheInv vs.cache vs.probeLog →
      CacheInv (verifyImages probe imgs vs).2.cache
        (verifyImages probe imgs vs).2.probeLog := by
  intro imgs
  induction imgs with
  | nil => exact fun vs h => h
  | cons img rest ih =>
    intro vs h
    exact ih _ (verifyOne_cacheInv probe img vs h)

theorem crawlStep_cacheInv (web : Web) (root : String) (st : CrawlState)
    (h : CacheInv st.cache st.probeLog) :
    CacheInv (crawlStep web root st).cache (crawlStep web root st).probeLog := by
  rcases hq : st.queue with _ | ⟨url, rest⟩
  · rw [crawlStep_nil web root st hq]
    exact h
  · by_cases hv : normalizeUrl url ∈ st.visited
    · rw [crawlStep_skip web root st url rest hq hv]
      exact h
    · simp only [crawlStep, hq]
      rw [if_neg hv]
      by_cases hdoc : isDocumentUrl url = true
      · simp only [hdoc, if_true]
        exact h
      · rw [Bool.not_eq_true] at hdoc
        by_cases hnav : (web.pages url).navOk = true
        · simp only [hdoc, Bool.false_eq_true, if_false, hnav, if_true]
          exact verifyImages_cacheInv web.probe _ _ h
        · rw [Bool.not_eq_true] at hnav
          simp only [hdoc, hnav, Bool.false_eq_true, if_false]
          exact h

theorem crawlLoop_cacheInv (web : Web) (root : String) (fuel : Nat) :
    ∀ st : CrawlState, CacheInv st.cache st.probeLog →
      CacheInv (crawlLoop web root fuel st).cache
        (crawlLoop web root fuel st).probeLog := by
  induction fuel with
  | zero => exact fun st h => h
  | succ n ih =>
    intro st h
    simp only [crawlLoop]
    rcases hq : st.queue with _ | ⟨url, rest⟩
    · exact h
    · exact ih _ (crawlStep_cacheInv web root st h)

/-! ## Reconciliation: a cached 404 always downgrades, never upgrades -/

theorem verifyOne_spec (probe : String → Option (Nat × Bool))
    (img : ImageInfo) (vs : VerifyState) :
    (verifyOne probe img vs).1.src = img.src ∧
    ((verifyOne probe img vs).1.isWorking = true → img.isWorking = true) ∧
    (img.verifiedExists = none → img.isWorking = true →
      (verifyOne probe img vs).1.verifiedExists = some false →
      (verifyOne probe img vs).1.isWorking = false) ∧
    (verifyOne probe img vs).2.working = vs.working -
      (if img.isWorking = true ∧ (verifyOne probe img vs).1.isWorking = false
        then 1 else 0) ∧
    (verifyOne probe img vs).2.broken = vs.broken +
      (if img.isWorking = true ∧ (verifyOne probe img vs).1.isWorking = false
        then 1 else 0) := by
  simp only [verifyOne]
  split
  · rcases hl : lookupC vs.cache (normalizeImageUrl img.src) with _ | ⟨e⟩
    · cases he : (checkImageExists probe vs.cache img.src).1 <;>
        cases hw : img.isWorking <;>
        simp [he, hw]
    · cases he : e.entryExists <;> cases hw : img.isWorking <;>
        simp [he, hw]
  · refine ⟨rfl, fun h => h, fun h1 h2 h3 => ?_, ?_, ?_⟩
    · rw [h1] at h3
      exact Option.noConfusion h3
    · cases hw : img.isWorking <;> simp [hw]
    · cases hw : img.isWorking <;> simp [hw]

/-- The per-image downgrade predicate used to count reconciliations. -/
def downgraded (p : ImageInfo × ImageInfo) : Bool :=
  p.1.isWorking && !p.2.isWorking

theorem verifyImages_spec (probe : String → Option (Nat × Bool)) :
    ∀ (imgs : List ImageInfo) (vs : VerifyState),
      (∀ i ∈ imgs, i.verifiedExists = none) →
      List.Forall₂ (fun a b => b.src = a.src ∧
        (b.isWorking = true → a.isWorking = true) ∧
        (a.isWorking = true → b.verifiedExists = some false →
          b.isWorking = false)) imgs (verifyImages probe imgs vs).1 ∧
      (verifyImages probe imgs vs).2.working = vs.working -
        ((imgs.zip (verifyImages probe imgs vs).1).countP downgraded : Int) ∧
      (verifyImages probe imgs vs).2.broken = vs.broken +
        ((imgs.zip (verifyImages probe imgs vs).1).countP downgraded : Int) := by
  intro imgs
  induction imgs with
  | nil =>
    intro vs h
    refine ⟨List.Forall₂.nil, ?_, ?_⟩ <;> simp [verifyImages]
  | cons img rest ih =>
    intro vs h
    have h1 := verifyOne_spec probe img vs
    have h2 := ih (verifyOne probe img vs).2 fun i hi => h i (by simp [hi])
    simp only [verifyImages]
    refine ⟨List.Forall₂.cons ⟨h1.1, h1.2.1, h1.2.2.1 (h img (by simp))⟩
      h2.1, ?_, ?_⟩
    · rw [h2.2.1, h1.2.2.2.1, List.zip_cons_cons, List.countP_cons]
      have hd : (downgraded (img, (verifyOne probe img vs).1) = true) ↔
          (img.isWorking = true ∧
            (verifyOne probe img vs).1.isWorking = false) := by
        simp [downgraded]
      by_cases hcond : img.isWorking = true ∧
          (verifyOne probe img vs).1.isWorking = false
      · rw [if_pos hcond, if_pos (hd.mpr hcond)]
        push_cast
        ring
      · rw [if_neg hcond, if_neg (fun hh => hcond (hd.mp hh))]
        push_cast
        ring
    · rw [h2.2.2, h1.2.2.2.2, List.zip_cons_cons, List.countP_cons]
      have hd : (downgraded (img, (verifyOne probe img vs).1) = true) ↔
          (img.isWorking = true ∧
            (verifyOne probe img vs).1.isWorking = false) := by
        simp [downgraded]
      by_cases hcond : img.isWorking = true ∧
          (verifyOne probe img vs).1.isWorking = false
      · rw [if_pos hcond, if_pos (hd.mpr hcond)]
        push_cast
        ring
      · rw [if_neg hcond, if_neg (fun hh => hcond (hd.mp hh))]
        push_cast
        ring

theorem initialAnalysis_details_verifiedExists (imgs : List BrowserImg) :
    ∀ i ∈ (initialAnalysis imgs).details, i.verifiedExists = none := by
  intro i hi
  simp only [initialAnalysis] at hi
  rcases List.mem_map.mp hi with ⟨b, hb, rfl⟩
  rfl

/-! ## Link partitioning: origin scoping and asset routing -/

theorem processLinks_spec (root : String) (visited : List String) :
    ∀ (links queue : List String),
      (∀ q ∈ (processLinks root visited links queue).2.2,
        q ∈ queue ∨ (q ∈ links ∧ startsWithS q root = true ∧
          isDocumentUrl q = false)) ∧
      (∀ l ∈ links, isDocumentUrl l = true →
        l ∈ (processLinks root visited links queue).2.1) ∧
      (∀ l ∈ (processLinks root visited links queue).2.1,
        l ∈ links ∧ isDocumentUrl l = true) ∧
      (∀ l ∈ (processLinks root visited links queue).1,
        l ∈ links ∧ startsWithS l root = true ∧ isDocumentUrl l = false) := by
  intro links
  induction links with
  | nil =>
    intro queue
    refine ⟨fun q hq => Or.inl hq, ?_, ?_, ?_⟩ <;> simp [processLinks]
  | cons link rest ih =>
    intro queue
    simp only [processLinks]
    by_cases hdoc : isDocumentUrl link = true
    · rw [if_pos hdoc]
      have ihq := ih queue
      refine ⟨?_, ?_, ?_, ?_⟩
      · intro q hq
        rcases ihq.1 q hq with hq2 | ⟨h1, h2, h3⟩
        · exact Or.inl hq2
        · exact Or.inr ⟨List.mem_cons_of_mem _ h1, h2, h3⟩
      · intro l hl hld
        rcases List.mem_cons.mp hl with rfl | hl
        · exact List.mem_cons_self _ _
        · exact List.mem_cons_of_mem _ (ihq.2.1 l hl hld)
      · intro l hl
        rcases List.mem_cons.mp hl with rfl | hl
        · exact ⟨List.mem_cons_self _ _, hdoc⟩
        · have := ihq.2.2.1 l hl
          exact ⟨List.mem_cons_of_mem _ this.1, this.2⟩
      · intro l hl
        have := ihq.2.2.2 l hl
        exact ⟨List.mem_cons_of_mem _ this.1, this.2.1, this.2.2⟩
    · rw [Bool.not_eq_true] at hdoc
      rw [if_neg (by simp [hdoc])]
      have lift : ∀ q2 : List String,
          ((∀ q ∈ (processLinks root visited rest q2).2.2,
            q ∈ q2 ∨ (q ∈ link :: rest ∧ startsWithS q root = true ∧
              isDocumentUrl q = false)) ∧
          (∀ l ∈ link :: rest, isDocumentUrl l = true →
            l ∈ (processLinks root visited rest q2).2.1) ∧
          (∀ l ∈ (processLinks root visited rest q2).2.1,
            l ∈ link :: rest ∧ isDocumentUrl l = true) ∧
          (∀ l ∈ (processLinks root visited rest q2).1,
            l ∈ link :: rest ∧ startsWithS l root = true ∧
              isDocumentUrl l = false)) := by
        intro q2
        have ihq := ih q2
        refine ⟨?_, ?_, ?_, ?_⟩
        · intro q hq
          rcases ihq.1 q hq with hq2 | ⟨h1, h2, h3⟩
          · exact Or.inl hq2
          · exact Or.inr ⟨List.mem_cons_of_mem _ h1, h2, h3⟩
        · intro l hl hld
          rcases List.mem_cons.mp hl with rfl | hl
          · rw [hld] at hdoc
            exact Bool.noConfusion hdoc
          · exact ihq.2.1 l hl hld
        · intro l hl
          have := ihq.2.2.1 l hl
          exact ⟨List.mem_cons_of_mem _ this.1, this.2⟩
        · intro l hl
          have := ihq.2.2.2 l hl
          exact ⟨List.mem_cons_of_mem _ this.1, this.2.1, this.2.2⟩
      by_cases hsw : startsWithS link root = true
      · rw [if_pos hsw]
        by_cases hdd : (!(decide (normalizeUrl link ∈ visited)) &&
            !(queue.any fun q => normalizeUrl q == normalizeUrl link)) = true
        · rw [if_pos hdd]
          have ihq := ih (queue ++ [link])
          refine ⟨?_, ?_, ?_, ?_⟩
          · intro q hq
            rcases ihq.1 q hq with hq2 | ⟨h1, h2, h3⟩
            · rcases List.mem_append.mp hq2 with hq3 | hq3
              · exact Or.inl hq3
              · rw [List.mem_singleton.mp hq3]
                exact Or.inr ⟨List.mem_cons_self _ _, hsw, hdoc⟩
            · exact Or.inr ⟨List.mem_cons_of_mem _ h1, h2, h3⟩
          · intro l hl hld
            rcases List.mem_cons.mp hl with rfl | hl
            · rw [hld] at hdoc
              exact Bool.noConfusion hdoc
            · exact ihq.2.1 l hl hld
          · intro l hl
            have := ihq.2.2.1 l hl
            exact ⟨List.mem_cons_of_mem _ this.1, this.2⟩
          · intro l hl
            rcases List.mem_cons.mp hl with rfl | hl
            · exact ⟨List.mem_cons_self _ _, hsw, hdoc⟩
            · have := ihq.2.2.2 l hl
              exact ⟨List.mem_cons_of_mem _ this.1, this.2.1, this.2.2⟩
        · rw [if_neg hdd]
          exact lift queue
      · rw [if_neg hsw]
        exact lift queue

/-! ## Non-asset queue invariant: documents are never scheduled -/

/-- C10's invariant: every queued target is non-asset, every emitted
result is a non-document for a non-asset URL, and recorded document
links are assets. -/
def NonAssetInv (st : CrawlState) : Prop :=
  (∀ q ∈ st.queue, isDocumentUrl q = false) ∧
  ∀ r ∈ st.results, r.isDocument = false ∧ isDocumentUrl r.url = false ∧
    ∀ d ∈ r.documentLinks, isDocumentUrl d = true

theorem crawlStep_navfail (web : Web) (root : String) (st : CrawlState)
    (url : String) (rest : List String) (hq : st.queue = url :: rest)
    (hv : normalizeUrl url ∉ st.visited)
    (hdoc : isDocumentUrl url = false)
    (hnav : (web.pages url).navOk = false) :
    crawlStep web root st = { st with
      queue := rest,
      visited := normalizeUrl url :: st.visited,
      results := st.results ++ [{ emptyPageResult url with
        jsErrors := ["Page failed to load: " ++
          (web.pages url).navErrMsg] }] } := by
  simp only [crawlStep, hq]
  rw [if_neg hv]
  simp [hdoc, hnav]

theorem crawlStep_html (web : Web) (root : String) (st : CrawlState)
    (url : String) (rest : List String) (hq : st.queue = url :: rest)
    (hv : normalizeUrl url ∉ st.visited)
    (hdoc : isDocumentUrl url = false)
    (hnav : (web.pages url).navOk = true) :
    crawlStep web root st =
      crawlHtml web root st url rest (normalizeUrl url :: st.visited) := by
  simp only [crawlStep, hq]
  rw [if_neg hv]
  simp [hdoc, hnav]

theorem crawlStep_nonAssetInv (web : Web) (root : String) (st : CrawlState)
    (h : NonAssetInv st) : NonAssetInv (crawlStep web root st) := by
  rcases hq : st.queue with _ | ⟨url, rest⟩
  · rw [crawlStep_nil web root st hq]
    exact h
  · have hqrest : ∀ q ∈ rest, isDocumentUrl q = false :=
      fun q hqm => h.1 q (by rw [hq]; exact List.mem_cons_of_mem _ hqm)
    have hdoc : isDocumentUrl url = false :=
      h.1 url (by rw [hq]; exact List.mem_cons_self _ _)
    by_cases hv : normalizeUrl url ∈ st.visited
    · rw [crawlStep_skip web root st url rest hq hv]
      exact ⟨hqrest, h.2⟩
    · by_cases hnav : (web.pages url).navOk = true
      · rw [crawlStep_html web root st url rest hq hv hdoc hnav]
        have hpl := processLinks_spec root (normalizeUrl url :: st.visited)
          (web.pages url).links rest
        constructor
        · intro q hqm
          rcases hpl.1 q hqm with hq2 | ⟨-, -, h3⟩
          · exact hqrest q hq2
          · exact h3
        · intro r hr
          rcases List.mem_append.mp hr with hr | hr
          · exact h.2 r hr
          · rw [List.mem_singleton.mp hr]
            refine ⟨rfl, hdoc, ?_⟩
            intro d hd
            exact (hpl.2.2.1 d hd).2
      · rw [Bool.not_eq_true] at hnav
        rw [crawlStep_navfail web root st url rest hq hv hdoc hnav]
        constructor
        · exact hqrest
        · intro r hr
          rcases List.mem_append.mp hr with hr | hr
          · exact h.2 r hr
          · rw [List.mem_singleton.mp hr]
            exact ⟨rfl, hdoc, fun d hd => absurd hd (by simp [emptyPageResult])⟩

theorem crawlLoop_nonAssetInv (web : Web) (root : String) (fuel : Nat) :
    ∀ st : CrawlState, NonAssetInv st →
      NonAssetInv (crawlLoop web root fuel st) := by
  induction fuel with
  | zero => exact fun st h => h
  | succ n ih =>
    intro st h
    simp only [crawlLoop]
    rcases hq : st.queue with _ | ⟨url, rest⟩
    · exact h
    · exact ih _ (crawlStep_nonAssetInv web root st h)

/-! ## Normalization invariance helpers -/

/-- URLs with the same origin and the same trailing-slash-stripped path
(so differing only in query, fragment or trailing slashes) share their
page identity. -/
theorem normalizeUrl_eq_of (u1 u2 : String) (p1 p2 : JSUrl)
    (h1 : parseUrl u1 = some p1) (h2 : parseUrl u2 = some p2)
    (ho : origin p1 = origin p2)
    (hp : stripTrailingSlashes p1.pathname =
      stripTrailingSlashes p2.pathname) :
    normalizeUrl u1 = normalizeUrl u2 := by
  simp only [normalizeUrl, h1, h2]
  congr 1
  rcases hsp : stripTrailingSlashes p1.pathname with _ | ⟨c, t⟩
  · have hsp2 : stripTrailingSlashes p2.pathname = [] := by
      rw [← hp]; exact hsp
    rw [strip_append_of_nil _ _ hsp, strip_append_of_nil _ _ hsp2, ho]
  · have hne : stripTrailingSlashes p1.pathname ≠ [] := by
      rw [hsp]; simp
    have hne2 : stripTrailingSlashes p2.pathname ≠ [] := by
      rw [← hp]; exact hne
    rw [strip_append_of_ne _ _ hne, strip_append_of_ne _ _ hne2, ho, hp]

/-- URLs with the same origin and path (so differing only in query or
fragment) share their asset identity. -/
theorem normalizeImageUrl_eq_of (u1 u2 : String) (p1 p2 : JSUrl)
    (h1 : parseUrl u1 = some p1) (h2 : parseUrl u2 = some p2)
    (ho : origin p1 = origin p2) (hp : p1.pathname = p2.pathname) :
    normalizeImageUrl u1 = normalizeImageUrl u2 := by
  simp only [normalizeImageUrl, h1, h2]
  congr 1
  rw [ho, hp]

/-! ## Concrete webs used to witness the claims -/

/-- A page with no links, no images, successful navigation. -/
def basePage : PageData :=
  { navOk := true, navErrMsg := "", status := 200, title := "t",
    metaDescription := "", metaTags := [], images := [], links := [] }

/-- The BFS scenario of the spec: root `R` links `[A, B]`; `A` links
`C`; `C` is not linked from `R`. -/
def web4 : Web :=
  { pages := fun url =>
      if url = "https://x.com" then
        { basePage with links := ["https://x.com/a", "https://x.com/b"] }
      else if url = "https://x.com/a" then
        { basePage with links := ["https://x.com/c"] }
      else basePage
    probe := fun _ => some (200, true) }

/-- A web on which every navigation fails. -/
def webFail : Web :=
  { pages := fun _ =>
      { basePage with navOk := false, navErrMsg := "net::ERR_FAILED" }
    probe := fun _ => none }

/-- A probe that always fails (the `page.evaluate` throws). -/
def probeFail : String → Option (Nat × Bool) := fun _ => none

/-! ## The claims -/

/-- **C1.** For every crawl run over any link graph (including cyclic
graphs), each normalized page identity yields at most one PageResult in
the final result sequence: a dequeued URL whose page identity is already
in the visited set is discarded with no result emitted, and the identity
is added to the visited set before the page is inspected. -/
theorem claim_C1 :
    (∀ (web : Web) (root : String) (fuel : Nat),
      ((crawlAndTest web root fuel).results.map
        fun r => normalizeUrl r.url).Nodup) ∧
    (∀ (web : Web) (root : String) (st : CrawlState) (url : String)
      (rest : List String),
      st.queue = url :: rest →
        (normalizeUrl url ∈ st.visited →
          crawlStep web root st = { st with queue := rest }) ∧
        (normalizeUrl url ∉ st.visited →
          normalizeUrl url ∈ (crawlStep web root st).visited)) := by
  constructor
  · intro web root fuel
    exact (crawlLoop_resultsInv web root fuel ⟨[], [root], [], [], []⟩
      ⟨List.nodup_nil, fun r hr => absurd hr (List.not_mem_nil r)⟩).1
  · intro web root st url rest hq
    constructor
    · exact crawlStep_skip web root st url rest hq
    · intro hv
      rcases crawlStep_emit web root st url rest hq hv with ⟨pr, -, -, hvis⟩
      rw [hvis]
      exact List.mem_cons_self _ _

theorem claim_C1_witness :
    ((crawlAndTest webFail "https://x.com" 5).results.map
      fun r => normalizeUrl r.url).Nodup ∧
    normalizeUrl "https://x.com" ∈
      (crawlStep webFail "https://x.com"
        ⟨[], ["https://x.com"], [], [], []⟩).visited :=
  ⟨claim_C1.1 webFail "https://x.com" 5,
   (claim_C1.2 webFail "https://x.com" ⟨[], ["https://x.com"], [], [], []⟩
     "https://x.com" [] rfl).2 (by decide)⟩

/-- **C2.** Across one run, at most one existence probe is issued per
normalized asset identity: the first `checkImageExists` call for an
identity writes a cache entry with `verified = true` regardless of
outcome (probe failures are cached as `exists = false`), and every later
check whose URL shares that asset identity returns the cached `exists`
value without issuing any probe. -/
theorem claim_C2 :
    (∀ (web : Web) (root : String) (fuel : Nat),
      ((crawlAndTest web root fuel).probeLog.map normalizeImageUrl).Nodup) ∧
    (∀ (probe : String → Option (Nat × Bool))
      (cache : List (String × CacheEntry)) (url : String) (e : CacheEntry),
      lookupC cache (normalizeImageUrl url) = some e →
        checkImageExists probe cache url = (e.entryExists, cache, [])) ∧
    (∀ (probe : String → Option (Nat × Bool))
      (cache : List (String × CacheEntry)) (url : String),
      lookupC cache (normalizeImageUrl url) = none →
      ∃ ent : CacheEntry,
        lookupC (checkImageExists probe cache url).2.1
          (normalizeImageUrl url) = some ent ∧
        ent.verified = true ∧
        (checkImageExists probe cache url).1 = ent.entryExists ∧
        (checkImageExists probe cache url).2.2 = [url] ∧
        (probe url = none → ent.entryExists = false)) := by
  refine ⟨?_, ?_, ?_⟩
  · intro web root fuel
    exact (crawlLoop_cacheInv web root fuel ⟨[], [root], [], [], []⟩
      ⟨List.nodup_nil, fun u hu => absurd hu (List.not_mem_nil u)⟩).1
  · intro probe cache url e h
    simp [checkImageExists, h]
  · intro probe cache url h
    simp only [checkImageExists, h]
    rcases hpr : probe url with _ | ⟨status, ok⟩
    · exact ⟨⟨false, true, url, 0⟩, lookupC_cons_self _ _ _, rfl, rfl, rfl,
        fun _ => rfl⟩
    · refine ⟨⟨ok && status == 200, true, url, status⟩,
        lookupC_cons_self _ _ _, rfl, rfl, rfl, ?_⟩
      intro hcontra
      exact Option.noConfusion hcontra

theorem claim_C2_witness :
    checkImageExists probeFail
      [("https://x.com/i.png", ⟨true, true, "https://x.com/i.png?v=1", 200⟩)]
      "https://x.com/i.png?v=2" =
      (true,
       [("https://x.com/i.png", ⟨true, true, "https://x.com/i.png?v=1", 200⟩)],
       []) ∧
    ∃ ent : CacheEntry,
      lookupC (checkImageExists probeFail [] "https://x.com/j.png").2.1
        (normalizeImageUrl "https://x.com/j.png") = some ent ∧
      ent.verified = true ∧
      (checkImageExists probeFail [] "https://x.com/j.png").1 =
        ent.entryExists ∧
      (checkImageExists probeFail [] "https://x.com/j.png").2.2 =
        ["https://x.com/j.png"] ∧
      (probeFail "https://x.com/j.png" = none → ent.entryExists = false) :=
  ⟨claim_C2.2.1 probeFail
     [("https://x.com/i.png", ⟨true, true, "https://x.com/i.png?v=1", 200⟩)]
     "https://x.com/i.png?v=2"
     ⟨true, true, "https://x.com/i.png?v=1", 200⟩ (by decide),
   claim_C2.2.2 probeFail [] "https://x.com/j.png" rfl⟩

/-- **C3.** For every image entry whose browser-reported working flag is
true but whose cache-verified existence is false, the final record has
`isWorking = false` and the page's `imagesAnalysis.broken` count is
incremented while `imagesAnalysis.working` is decremented (one unit per
downgraded entry); the reverse direction never occurs: a
browser-reported broken image is never upgraded to working. -/
theorem claim_C3 :
    ∀ (probe : String → Option (Nat × Bool)) (imgs : List BrowserImg)
      (cache : List (String × CacheEntry)) (log : List String),
      List.Forall₂ (fun a b => b.src = a.src ∧
        (b.isWorking = true → a.isWorking = true) ∧
        (a.isWorking = true → b.verifiedExists = some false →
          b.isWorking = false))
        (initialAnalysis imgs).details
        (verifyImages probe (initialAnalysis imgs).details
          ⟨cache, log, (initialAnalysis imgs).working,
            (initialAnalysis imgs).broken⟩).1 ∧
      (verifyImages probe (initialAnalysis imgs).details
        ⟨cache, log, (initialAnalysis imgs).working,
          (initialAnalysis imgs).broken⟩).2.working =
        (initialAnalysis imgs).working -
          (((initialAnalysis imgs).details.zip
            (verifyImages probe (initialAnalysis imgs).details
              ⟨cache, log, (initialAnalysis imgs).working,
                (initialAnalysis imgs).broken⟩).1).countP downgraded : Int) ∧
      (verifyImages probe (initialAnalysis imgs).details
        ⟨cache, log, (initialAnalysis imgs).working,
          (initialAnalysis imgs).broken⟩).2.broken =
        (initialAnalysis imgs).broken +
          (((initialAnalysis imgs).details.zip
            (verifyImages probe (initialAnalysis imgs).details
              ⟨cache, log, (initialAnalysis imgs).working,
                (initialAnalysis imgs).broken⟩).1).countP downgraded : Int) :=
  fun probe imgs cache log =>
    verifyImages_spec probe (initialAnalysis imgs).details
      ⟨cache, log, (initialAnalysis imgs).working,
        (initialAnalysis imgs).broken⟩
      (initialAnalysis_details_verifiedExists imgs)

theorem claim_C3_witness :
    (verifyImages probeFail
      (initialAnalysis [⟨"https://x.com/i.png", "a", true⟩]).details
      ⟨[], [], (initialAnalysis [⟨"https://x.com/i.png", "a", true⟩]).working,
        (initialAnalysis [⟨"https://x.com/i.png", "a", true⟩]).broken⟩).2.working =
      (initialAnalysis [⟨"https://x.com/i.png", "a", true⟩]).working -
        (((initialAnalysis [⟨"https://x.com/i.png", "a", true⟩]).details.zip
          (verifyImages probeFail
            (initialAnalysis [⟨"https://x.com/i.png", "a", true⟩]).details
            ⟨[], [],
              (initialAnalysis [⟨"https://x.com/i.png", "a", true⟩]).working,
              (initialAnalysis
                [⟨"https://x.com/i.png", "a", true⟩]).broken⟩).1).countP
          downgraded : Int) :=
  (claim_C3 probeFail [⟨"https://x.com/i.png", "a", true⟩] [] []).2.1

/-- **C4.** The scheduler processes targets in FIFO (breadth-first)
order: with root `R` whose page links are `[A, B]` in document order,
where `A`'s links include `C` and `C` is not linked from `R`, the
emitted PageResult sequence is ordered `R, A, B, C`. -/
theorem claim_C4 :
    (crawlAndTest web4 "https://x.com" 10).results.map (fun r => r.url) =
      ["https://x.com", "https://x.com/a", "https://x.com/b",
       "https://x.com/c"] := by decide

/-- **C5.** A link resolved outside the crawl root is never enqueued:
everything newly enqueued starts with the root and is non-asset.  An
asset link is recorded in documentLinks (wherever it points), and a
non-asset link outside the root is recorded nowhere — not in the
result's links, not in documentLinks, and it enters the queue only if it
was already there. -/
theorem claim_C5 :
    ∀ (root : String) (visited links queue : List String),
      (∀ q ∈ (processLinks root visited links queue).2.2,
        q ∈ queue ∨ (q ∈ links ∧ startsWithS q root = true ∧
          isDocumentUrl q = false)) ∧
      (∀ l ∈ links, isDocumentUrl l = true →
        l ∈ (processLinks root visited links queue).2.1) ∧
      (∀ l ∈ links, startsWithS l root = false → isDocumentUrl l = false →
        l ∉ (processLinks root visited links queue).1 ∧
        l ∉ (processLinks root visited links queue).2.1 ∧
        (l ∈ (processLinks root visited links queue).2.2 → l ∈ queue)) := by
  intro root visited links queue
  have hs := processLinks_spec root visited links queue
  refine ⟨hs.1, hs.2.1, ?_⟩
  intro l hl hsw hdoc
  refine ⟨?_, ?_, ?_⟩
  · intro hmem
    rw [(hs.2.2.2 l hmem).2.1] at hsw
    exact Bool.noConfusion hsw
  · intro hmem
    rw [(hs.2.2.1 l hmem).2] at hdoc
    exact Bool.noConfusion hdoc
  · intro hmem
    rcases hs.1 l hmem with hmem2 | ⟨-, h2, -⟩
    · exact hmem2
    · rw [h2] at hsw
      exact Bool.noConfusion hsw

theorem claim_C5_witness :
    "https://other.com/d.pdf" ∈
      (processLinks "https://x.com" [] ["https://other.com/d.pdf"] []).2.1 ∧
    "https://other.com/page" ∉
      (processLinks "https://x.com" [] ["https://other.com/page"] []).1 :=
  ⟨(claim_C5 "https://x.com" [] ["https://other.com/d.pdf"] []).2.1
     "https://other.com/d.pdf" (by decide) (by decide),
   ((claim_C5 "https://x.com" [] ["https://other.com/page"] []).2.2
     "https://other.com/page" (by decide) (by decide) (by decide)).1⟩

/-- **C6.** Page identity normalization maps two URLs that differ only
in fragment, trailing slashes, or query string to the same identity
(same origin and same stripped path suffice — query and fragment are
unconstrained), and asset identity normalization maps two URLs that
differ only in fragment or query string to the same identity; in
particular `normalizeUrl "https://x.com/a/"` equals
`normalizeUrl "https://x.com/a#frag"`, and
`normalizeImageUrl "https://x.com/i.png?v=1"` equals
`normalizeImageUrl "https://x.com/i.png?v=2"`. -/
theorem claim_C6 :
    (∀ (u1 u2 : String) (p1 p2 : JSUrl),
      parseUrl u1 = some p1 → parseUrl u2 = some p2 →
      origin p1 = origin p2 →
      stripTrailingSlashes p1.pathname = stripTrailingSlashes p2.pathname →
      normalizeUrl u1 = normalizeUrl u2) ∧
    (∀ (u1 u2 : String) (p1 p2 : JSUrl),
      parseUrl u1 = some p1 → parseUrl u2 = some p2 →
      origin p1 = origin p2 → p1.pathname = p2.pathname →
      normalizeImageUrl u1 = normalizeImageUrl u2) ∧
    normalizeUrl "https://x.com/a/" = normalizeUrl "https://x.com/a#frag" ∧
    normalizeImageUrl "https://x.com/i.png?v=1" =
      normalizeImageUrl "https://x.com/i.png?v=2" :=
  ⟨fun u1 u2 p1 p2 => normalizeUrl_eq_of u1 u2 p1 p2,
   fun u1 u2 p1 p2 => normalizeImageUrl_eq_of u1 u2 p1 p2,
   by decide, by decide⟩

theorem claim_C6_witness :
    normalizeUrl "https://x.com/p?a=1" = normalizeUrl "https://x.com/p/#f" :=
  claim_C6.1 "https://x.com/p?a=1" "https://x.com/p/#f"
    ⟨"https".toList, "x.com".toList, none, "/p".toList, "a=1".toList, []⟩
    ⟨"https".toList, "x.com".toList, none, "/p/".toList, [], "f".toList⟩
    (by decide) (by decide) (by decide) (by decide)

/-- **C7 counterexample.** The claim as stated — idempotence on every
URL string — is false.  `new URL` parses the opaque-path URL
`blob:https://x.com/abc`; its origin is the inner URL's origin
`https://x.com` and its pathname the opaque path, so one normalization
yields `https://x.comhttps://x.com/abc`.  That string re-parses in
authority form with host `x.comhttps` (an empty port is elided) and
pathname `//x.com/abc`, so a second normalization yields the different
string `https://x.comhttps//x.com/abc`.  The same chain breaks
`normalizeImageUrl`. -/
theorem claim_C7_counterexample :
    normalizeUrl "blob:https://x.com/abc" = "https://x.comhttps://x.com/abc" ∧
    normalizeUrl (normalizeUrl "blob:https://x.com/abc") =
      "https://x.comhttps//x.com/abc" ∧
    normalizeUrl (normalizeUrl "blob:https://x.com/abc") ≠
      normalizeUrl "blob:https://x.com/abc" ∧
    normalizeImageUrl (normalizeImageUrl "blob:https://x.com/abc") ≠
      normalizeImageUrl "blob:https://x.com/abc" := by decide

/-- **C7.** (Amended.)  Both normalizers are idempotent on every URL
string that parses in authority form (`scheme://host...`, a nonempty
host), and on malformed inputs (where `new URL` throws) the original
string is returned unchanged — no exception propagates.  Idempotence
does not extend to opaque-path URLs such as `blob:` ones
(`claim_C7_counterexample`). -/
theorem claim_C7 :
    (∀ (s : String) (u : JSUrl), parseUrl s = some u → u.host ≠ [] →
      normalizeUrl (normalizeUrl s) = normalizeUrl s ∧
      normalizeImageUrl (normalizeImageUrl s) = normalizeImageUrl s) ∧
    (∀ s : String, parseUrl s = none →
      normalizeUrl s = s ∧ normalizeImageUrl s = s) := by
  refine ⟨fun s u hp hh =>
    ⟨normalizeUrl_idem s u hp hh, normalizeImageUrl_idem s u hp hh⟩, ?_⟩
  intro s h
  constructor
  · simp [normalizeUrl, h]
  · simp [normalizeImageUrl, h]

theorem claim_C7_witness :
    normalizeUrl (normalizeUrl "https://x.com/a/") =
      normalizeUrl "https://x.com/a/" ∧
    normalizeImageUrl (normalizeImageUrl "https://x.com/a/") =
      normalizeImageUrl "https://x.com/a/" ∧
    normalizeUrl "not a url" = "not a url" :=
  ⟨(claim_C7.1 "https://x.com/a/"
      ⟨"https".toList, "x.com".toList, none, "/a/".toList, [], []⟩
      (by decide) (by decide)).1,
   (claim_C7.1 "https://x.com/a/"
      ⟨"https".toList, "x.com".toList, none, "/a/".toList, [], []⟩
      (by decide) (by decide)).2,
   (claim_C7.2 "not a url" (by decide)).1⟩

/-- **C8.** `isDocumentUrl url` is true exactly when the URL parses and
its lower-cased path component ends with one of the fixed extensions,
with query and fragment ignored; on an unparseable URL it is false.  In
particular `.PDF` matches case-insensitively, a plain page does not
match, and a query string does not block matching. -/
theorem claim_C8 :
    (∀ s : String, isDocumentUrl s = true ↔
      ∃ u : JSUrl, parseUrl s = some u ∧
        ∃ ext ∈ DOCUMENT_EXTENSIONS,
          ext.toList.isSuffixOf (u.pathname.map lowerChar) = true) ∧
    isDocumentUrl "https://x.com/doc.PDF" = true ∧
    isDocumentUrl "https://x.com/page" = false ∧
    isDocumentUrl "https://x.com/img.png?x=1" = true := by
  refine ⟨?_, by decide, by decide, by decide⟩
  intro s
  rcases hp : parseUrl s with _ | ⟨u⟩
  · simp [isDocumentUrl, hp]
  · simp [isDocumentUrl, hp, List.any_eq_true]

theorem claim_C8_witness :
    ∃ u : JSUrl, parseUrl "https://x.com/doc.PDF" = some u ∧
      ∃ ext ∈ DOCUMENT_EXTENSIONS,
        ext.toList.isSuffixOf (u.pathname.map lowerChar) = true :=
  (claim_C8.1 "https://x.com/doc.PDF").mp (by decide)

/-- **C9.** When HTML navigation for a target fails, the crawl does not
abort: a PageResult is still emitted for that target with the failure
message recorded in jsErrors and default/empty values for every other
field, its links list is empty so the page contributes no queue entries
(the queue simply loses its head), and the target's identity is in the
visited set, so it is never retried. -/
theorem claim_C9 :
    ∀ (web : Web) (root : String) (st : CrawlState) (url : String)
      (rest : List String),
      st.queue = url :: rest →
      normalizeUrl url ∉ st.visited →
      isDocumentUrl url = false →
      (web.pages url).navOk = false →
      crawlStep web root st = { st with
        queue := rest,
        visited := normalizeUrl url :: st.visited,
        results := st.results ++ [{ emptyPageResult url with
          jsErrors := ["Page failed to load: " ++
            (web.pages url).navErrMsg] }] } :=
  fun web root st url rest hq hv hdoc hnav =>
    crawlStep_navfail web root st url rest hq hv hdoc hnav

theorem claim_C9_witness :
    crawlStep webFail "https://x.com"
      ⟨[], ["https://x.com/p"], [], [], []⟩ =
      { visited := [normalizeUrl "https://x.com/p"],
        queue := [],
        results := [{ emptyPageResult "https://x.com/p" with
          jsErrors := ["Page failed to load: " ++
            (webFail.pages "https://x.com/p").navErrMsg] }],
        cache := [], probeLog := [] } :=
  claim_C9 webFail "https://x.com" ⟨[], ["https://x.com/p"], [], [], []⟩
    "https://x.com/p" [] rfl (by decide) (by decide) rfl

/-- **C10.** Asset links are recorded in documentLinks but never
enqueued, and every enqueued link is classified non-asset at discovery
time; consequently if the configured root URL is not an asset, no
PageResult with `isDocument = true` is ever produced (indeed no
processed URL is an asset), and links collected in documentLinks are
never themselves inspected. -/
theorem claim_C10 :
    ∀ (web : Web) (root : String) (fuel : Nat),
      isDocumentUrl root = false →
      (∀ r ∈ (crawlAndTest web root fuel).results,
        r.isDocument = false ∧ isDocumentUrl r.url = false) ∧
      (∀ q ∈ (crawlAndTest web root fuel).queue, isDocumentUrl q = false) ∧
      (∀ r ∈ (crawlAndTest web root fuel).results,
        ∀ d ∈ r.documentLinks,
          ∀ r2 ∈ (crawlAndTest web root fuel).results, r2.url ≠ d) := by
  intro web root fuel hroot
  have hinv := crawlLoop_nonAssetInv web root fuel ⟨[], [root], [], [], []⟩
    ⟨by intro q hq
        rw [List.mem_singleton.mp hq]
        exact hroot,
     fun r hr => absurd hr (List.not_mem_nil r)⟩
  refine ⟨?_, hinv.1, ?_⟩
  · intro r hr
    exact ⟨(hinv.2 r hr).1, (hinv.2 r hr).2.1⟩
  · intro r hr d hd r2 hr2
    intro heq
    have h1 := (hinv.2 r hr).2.2 d hd
    have h2 := (hinv.2 r2 hr2).2.1
    rw [heq] at h2
    rw [h1] at h2
    exact Bool.noConfusion h2

theorem claim_C10_witness :
    isDocumentUrl "https://x.com" = false :=
  (claim_C10 webFail "https://x.com" 0 (by decide)).2.1
    "https://x.com" (by decide)
